import Mathlib

/- A shallow embedding of the retrieval and context-assembly engine of the
repository, from src/backend/src/services/retrieval.ts together with the
configuration loader src/backend/src/services/ragConfig.ts.  JavaScript
strings are modelled as lists of characters, similarity scores as rational
numbers, page numbers and timestamps as integers.  External capabilities
(completion model, embedding model, vector search, page fetch) are modelled
by passing their outcome as an explicit argument. -/

namespace Retrieval

/-- JavaScript strings, modelled as lists of characters. -/
abbrev Str := List Char

/-- Word characters of the JavaScript regular-expression word class, used by
the word-boundary assertions of CLEAR_OFF_TOPIC_PATTERN and
REWRITE_CONTEXT_DEPENDENT_PATTERN: ASCII letters, digits and underscore. -/
def isWordChar (c : Char) : Bool :=
  (decide ('a' ≤ c) && decide (c ≤ 'z')) || (decide ('A' ≤ c) && decide (c ≤ 'Z')) ||
    (decide ('0' ≤ c) && decide (c ≤ '9')) || decide (c = '_')

/-- White-space characters recognised by JavaScript trim and the splitting
pattern of shouldBypassRewriteModel, restricted to the code points modelled
here. -/
def isJsSpace (c : Char) : Bool :=
  decide (c = ' ') || decide (c = '\t') || decide (c = '\n') || decide (c = '\r') ||
    decide (c = '\x0b') || decide (c = '\x0c') || decide (c = ' ')

/-- The uppercase-to-lowercase table for ASCII letters.  JavaScript
toLowerCase is modelled as the character map induced by this table (queries
are modelled over the ASCII repertoire; other characters are unchanged). -/
def upperLowerTable : List (Char × Char) :=
  [('A', 'a'), ('B', 'b'), ('C', 'c'), ('D', 'd'), ('E', 'e'), ('F', 'f'), ('G', 'g'),
   ('H', 'h'), ('I', 'i'), ('J', 'j'), ('K', 'k'), ('L', 'l'), ('M', 'm'), ('N', 'n'),
   ('O', 'o'), ('P', 'p'), ('Q', 'q'), ('R', 'r'), ('S', 's'), ('T', 't'), ('U', 'u'),
   ('V', 'v'), ('W', 'w'), ('X', 'x'), ('Y', 'y'), ('Z', 'z')]

/-- Lowering of a single character: the table entry when the character is an
ASCII capital letter, the character itself otherwise. -/
def asciiLower (c : Char) : Char :=
  match List.find? (fun p => decide (p.1 = c)) upperLowerTable with
  | some p => p.2
  | none => c

/-- Model of the JavaScript toLowerCase call. -/
def lowerStr (s : Str) : Str := s.map asciiLower

/-- Model of the JavaScript trim call: drop white space from both ends. -/
def trimStr (s : Str) : Str :=
  ((s.dropWhile isJsSpace).reverse.dropWhile isJsSpace).reverse

/-- Number of words of a string, in the sense of the source line that splits
on runs of white space and keeps the non-empty pieces: the number of maximal
runs of non-white-space characters.  The flag records whether the previous
character belonged to a word. -/
def countWordsAux : Bool → Str → Nat
  | _, [] => 0
  | inWord, c :: rest =>
    if isJsSpace c then countWordsAux false rest
    else (if inWord then 0 else 1) + countWordsAux true rest

/-- Word count of a query, as computed by shouldBypassRewriteModel. -/
def countWords (s : Str) : Nat := countWordsAux false s

/-- A position boundary is satisfied when the adjacent character is absent or
is not a word character; this is the JavaScript word-boundary assertion. -/
def nonWordOpt : Option Char → Bool
  | none => true
  | some c => !isWordChar c

/-- The phrase p matches at the current position of s: p is a prefix of s,
the previous character (if any) is not a word character, and the character
following the matched prefix (if any) is not a word character. -/
def matchHere (prev : Option Char) (s p : Str) : Bool :=
  decide (p <+: s) && nonWordOpt prev && nonWordOpt (s.drop p.length).head?

/-- Scan of s for a word-boundary delimited occurrence of p, carrying the
previously consumed character. -/
def boundaryScan (p : Str) : Option Char → Str → Bool
  | prev, [] => matchHere prev [] p
  | prev, c :: rest => matchHere prev (c :: rest) p || boundaryScan p (some c) rest

/-- The JavaScript test of a pattern consisting of a word-boundary, a fixed
phrase, and a word-boundary, somewhere in s. -/
def wordBoundaryMatch (s p : Str) : Bool := boundaryScan p none s

/-- Test of an alternation of word-boundary delimited phrases against s. -/
def testWordPattern (phrases : List Str) (s : Str) : Bool :=
  phrases.any (fun p => wordBoundaryMatch s p)

/-- The alternatives of CLEAR_OFF_TOPIC_PATTERN, in source order. -/
def CLEAR_OFF_TOPIC_PHRASES : List Str :=
  ["super bowl".data, "nba".data, "nfl".data, "epl".data, "mlb".data, "nhl".data,
   "score".data, "match result".data, "weather".data, "temperature".data, "rain".data,
   "recipe".data, "cook".data, "restaurant".data, "movie".data, "film".data,
   "netflix".data, "music".data, "song".data, "celebrity".data, "gossip".data,
   "travel itinerary".data, "flight status".data, "game walkthrough".data]

/-- The alternatives of REWRITE_CONTEXT_DEPENDENT_PATTERN, in source order. -/
def REWRITE_CONTEXT_DEPENDENT_WORDS : List Str :=
  ["it".data, "this".data, "that".data, "these".data, "those".data, "they".data,
   "them".data, "their".data, "he".data, "she".data, "its".data, "there".data,
   "here".data, "same".data, "again".data, "above".data, "below".data,
   "previous".data, "earlier".data, "latter".data, "former".data, "more".data,
   "elaborate".data, "clarify".data]

/-- hasClearOffTopicSignal from the source: the off-topic pattern tested
against the lowercased query (the pattern itself is case-insensitive and all
its phrases are lowercase). -/
def hasClearOffTopicSignal (q : Str) : Bool :=
  testWordPattern CLEAR_OFF_TOPIC_PHRASES (lowerStr q)

/-- FINANCIAL_FAST_PATH_TERMS from the source, in source order. -/
def FINANCIAL_FAST_PATH_TERMS : List Str :=
  ["premium".data, "policy".data, "investment".data, "investing".data, "portfolio".data,
   "allocation".data, "mutual fund".data, "etf".data, "bond".data, "equity".data,
   "gic".data, "mer".data, "fee".data, "fees".data, "commission".data,
   "suitability".data, "kyc".data, "compliance".data, "disclosure".data,
   "withdrawal".data, "deposit".data, "transfer".data, "redemption".data,
   "subscription".data, "benchmark".data, "returns".data, "annuity".data,
   "wealth advantage".data, "great eastern".data, "tpd".data, "terminal illness".data,
   "welcome bonus".data, "loyalty bonus".data, "premium holiday".data]

/-- isClearlyFinancialQuery from the source: some fast-path term is contained
in the lowercased query. -/
def isClearlyFinancialQuery (q : Str) : Bool :=
  FINANCIAL_FAST_PATH_TERMS.any (fun t => decide (t <:+: lowerStr q))

/-- Outcome of the three-tier classifier. -/
structure DomainClassification where
  in_domain : Bool
  is_financial : Bool
  reason : Str
deriving DecidableEq

/-- The classification cache: entries map a normalized key to a result and
its expiry timestamp, as in the source map from string to result and
expiresAt. -/
abbrev ClassCache := List (Str × DomainClassification × Int)

/-- getCacheKeyForClassification: lowercase, then trim. -/
def getCacheKeyForClassification (q : Str) : Str := trimStr (lowerStr q)

/-- Lookup in the classification cache map. -/
def ccLookup (k : Str) : ClassCache → Option (DomainClassification × Int)
  | [] => none
  | (k2, e) :: rest => if k2 = k then some e else ccLookup k rest

/-- Deletion from the classification cache map. -/
def ccErase (k : Str) : ClassCache → ClassCache
  | [] => []
  | (k2, e) :: rest => if k2 = k then rest else (k2, e) :: ccErase k rest

/-- Insertion into the classification cache map, overwriting an existing
entry for the key as the JavaScript map set does. -/
def ccSet (k : Str) (e : DomainClassification × Int) : ClassCache → ClassCache
  | [] => [(k, e)]
  | (k2, e2) :: rest => if k2 = k then (k2, e) :: rest else (k2, e2) :: ccSet k e rest

/-- getCachedClassification: miss when absent; when present but expired
(strictly past expiresAt) delete the entry and miss; otherwise hit.  The
updated cache is returned alongside. -/
def getCachedClassification (q : Str) (st : ClassCache) (now : Int) :
    Option DomainClassification × ClassCache :=
  let key := getCacheKeyForClassification q
  match ccLookup key st with
  | none => (none, st)
  | some (r, expiresAt) =>
    if expiresAt < now then (none, ccErase key st) else (some r, st)

/-- The two-minute TTL of the classification cache, in milliseconds. -/
def CLASSIFICATION_TTL_MS : Int := 2 * 60 * 1000

/-- setCachedClassification: store under the normalized key with expiry two
minutes from now. -/
def setCachedClassification (q : Str) (r : DomainClassification) (st : ClassCache)
    (now : Int) : ClassCache :=
  ccSet (getCacheKeyForClassification q) (r, now + CLASSIFICATION_TTL_MS) st

/-- heuristicDomainClassification: the conservative default used when the
model classification is unavailable. -/
def heuristicDomainClassification : DomainClassification :=
  ⟨true, true, "Defaulting to in-domain - LLM classification unavailable.".data⟩

/-- Outcome of the classifier completion call followed by the defensive JSON
parse in the source: failure covers a thrown call, empty raw output,
unparsable JSON, and a non-boolean in_domain field, each of which makes the
code fall back to the heuristic default; parsed carries a boolean in_domain,
the is_financial field when it is boolean, and the reason field when it is a
string.  The conversation history only shapes the messages sent to the
model, hence is absorbed into this outcome. -/
inductive ClassifierOutcome where
  | failure
  | parsed (in_domain : Bool) (is_financial : Option Bool) (reason : Option Str)

/-- classifyQueryDomain: fast path on financial keywords, then cache lookup,
then the parsed model outcome with the safety override, caching the final
result.  Returns the classification together with the updated cache. -/
def classifyQueryDomain (q : Str) (outcome : ClassifierOutcome) (st : ClassCache)
    (now : Int) : DomainClassification × ClassCache :=
  if isClearlyFinancialQuery q then
    (⟨true, true, "Heuristic fast-path: financial keyword match.".data⟩, st)
  else
    match getCachedClassification q st now with
    | (some r, st2) => (r, st2)
    | (none, st2) =>
      match outcome with
      | .failure => (heuristicDomainClassification, st2)
      | .parsed ind isf rsn =>
        let modelIsFinancial := isf.getD true
        let modelReason :=
          match rsn with
          | some s => if trimStr s ≠ [] then s else "Domain classified by model.".data
          | none => "Domain classified by model.".data
        if !ind && !modelIsFinancial && !hasClearOffTopicSignal q then
          let r : DomainClassification :=
            ⟨true, true, "Safety override applied: ".data ++ modelReason⟩
          (r, setCachedClassification q r st2 now)
        else
          let r : DomainClassification := ⟨ind, modelIsFinancial, modelReason⟩
          (r, setCachedClassification q r st2 now)

/-- Classification cache states reachable by a sequence of
classifyQueryDomain calls from the initial empty cache, with arbitrary
queries, model outcomes and clock readings. -/
inductive ReachableClassCache : ClassCache → Prop where
  | init : ReachableClassCache []
  | step (q : Str) (outcome : ClassifierOutcome) (now : Int) {st : ClassCache} :
      ReachableClassCache st → ReachableClassCache (classifyQueryDomain q outcome st now).2

/-- The LRU cache of the source: an insertion-ordered map (head oldest) and
a capacity. -/
structure LRUCache (K V : Type) where
  map : List (K × V)
  maxSize : Nat

/-- Lookup in the insertion-ordered map. -/
def lruFind {K V : Type} [DecidableEq K] (k : K) : List (K × V) → Option V
  | [] => none
  | (k2, v) :: rest => if k2 = k then some v else lruFind k rest

/-- Deletion of a key from the insertion-ordered map. -/
def lruDelete {K V : Type} [DecidableEq K] (k : K) : List (K × V) → List (K × V)
  | [] => []
  | (k2, v) :: rest => if k2 = k then rest else (k2, v) :: lruDelete k rest

/-- LRUCache.get: on a hit, move the entry to the most-recent end. -/
def LRUCache.get {K V : Type} [DecidableEq K] (c : LRUCache K V) (k : K) :
    Option V × LRUCache K V :=
  match lruFind k c.map with
  | none => (none, c)
  | some v => (some v, ⟨lruDelete k c.map ++ [(k, v)], c.maxSize⟩)

/-- LRUCache.set: delete an existing entry for the key, otherwise evict the
oldest entry when at capacity; then append at the most-recent end. -/
def LRUCache.set {K V : Type} [DecidableEq K] (c : LRUCache K V) (k : K) (v : V) :
    LRUCache K V :=
  if (lruFind k c.map).isSome then ⟨lruDelete k c.map ++ [(k, v)], c.maxSize⟩
  else if c.maxSize ≤ c.map.length then
    match c.map with
    | [] => ⟨[(k, v)], c.maxSize⟩
    | _ :: rest => ⟨rest ++ [(k, v)], c.maxSize⟩
  else ⟨c.map ++ [(k, v)], c.maxSize⟩

/-- A fresh LRU cache of the given capacity. -/
def LRUCache.empty (K V : Type) (maxSize : Nat) : LRUCache K V := ⟨[], maxSize⟩

/-- Folding a sequence of set operations over an LRU cache. -/
def LRUCache.setAll {K V : Type} [DecidableEq K] (c : LRUCache K V)
    (kvs : List (K × V)) : LRUCache K V :=
  kvs.foldl (fun c kv => c.set kv.1 kv.2) c

/-- Conversation roles. -/
inductive Role where
  | user
  | assistant
deriving DecidableEq

/-- A conversation history message. -/
structure ChatMsg where
  role : Role
  content : Str
deriving DecidableEq

/-- shouldBypassRewriteModel from the source. -/
def shouldBypassRewriteModel (q : Str) (hist : Option (List ChatMsg)) : Bool :=
  let hasHistory :=
    match hist with
    | some l => !l.isEmpty
    | none => false
  if hasHistory then false
  else
    let normalized := lowerStr (trimStr q)
    if normalized = [] then true
    else if testWordPattern REWRITE_CONTEXT_DEPENDENT_WORDS normalized then false
    else if countWords normalized ≤ 3 then false
    else if 220 < normalized.length then false
    else true

/-- Outcome of the rewrite completion call: failure covers a thrown call;
success carries the message content, which the provider may omit. -/
inductive RewriteOutcome where
  | failure
  | success (content : Option Str)

/-- rewriteQueryForRetrieval, returning the rewritten query together with a
flag recording whether the completion model was called. -/
def rewriteQueryForRetrieval (q : Str) (hist : Option (List ChatMsg))
    (out : RewriteOutcome) : Str × Bool :=
  if shouldBypassRewriteModel q hist then (q, false)
  else
    match out with
    | .failure => (q, true)
    | .success none => (q, true)
    | .success (some s) => (if trimStr s = [] then q else trimStr s, true)

/-- One document passage candidate. -/
structure RetrievedChunk where
  document_id : Str
  filename : Str
  page_number : Int
  text : Str
  similarity : ℚ
deriving DecidableEq

/-- A deduplicated, citation-grade reference derived from chunks. -/
structure RetrievalSource where
  filename : Str
  page : Int
  similarity : ℚ
  document_id : Str
deriving DecidableEq

/-- The tunable parameters of ragConfig.ts consumed by the retrieval
engine. -/
structure RagConfig where
  matchThreshold : ℚ
  matchCount : Nat
  minSourceSimilarity : ℚ
  maxVectorMatchesForExpansion : Nat
  maxPagesForExpansion : Nat
  maxContextChunks : Nat
  maxContextChars : Nat

/-- The bounds the ragConfig.ts loader enforces on every loaded
configuration: thresholds clamped to the interval from 0 to 0.99, counts at
least 1, and at least 1000 context characters. -/
def RagConfig.Loaded (cfg : RagConfig) : Prop :=
  0 ≤ cfg.matchThreshold ∧ cfg.matchThreshold ≤ 0.99 ∧
    1 ≤ cfg.matchCount ∧
    0 ≤ cfg.minSourceSimilarity ∧ cfg.minSourceSimilarity ≤ 0.99 ∧
    1 ≤ cfg.maxVectorMatchesForExpansion ∧ 1 ≤ cfg.maxPagesForExpansion ∧
    1 ≤ cfg.maxContextChunks ∧ 1000 ≤ cfg.maxContextChars

instance (cfg : RagConfig) : Decidable cfg.Loaded := by
  unfold RagConfig.Loaded
  infer_instance

/-- Decimal rendering of an integer, modelling the JavaScript template
interpolation of a page number. -/
def intStr (n : Int) : Str := (Int.repr n).data

/-- The labelled header of a chunk block, including the trailing line
break. -/
def chunkHeader (c : RetrievedChunk) : Str :=
  '[' :: (c.filename ++ ", Page ".data ++ intStr c.page_number ++ "]\n".data)

/-- A full context block: header followed by the chunk text. -/
def chunkBlock (c : RetrievedChunk) : Str := chunkHeader c ++ c.text

/-- The fixed separator joined between context blocks. -/
def CONTEXT_SEPARATOR : Str := "\n\n---\n\n".data

/-- The join of the selected blocks with the fixed separator. -/
def joinBlocks : List RetrievedChunk → Str
  | [] => []
  | [c] => chunkBlock c
  | c :: rest => chunkBlock c ++ CONTEXT_SEPARATOR ++ joinBlocks rest

/-- The selection loop of toContext: selected chunks so far, the running
character total, and the remaining chunks. -/
def toContextGo (cfg : RagConfig) :
    List RetrievedChunk → List RetrievedChunk → Nat → Str
  | [], selected, _ => joinBlocks selected
  | c :: rest, selected, totalChars =>
    if cfg.maxContextChunks ≤ selected.length then joinBlocks selected
    else
      let block := chunkBlock c
      let separatorLength := if selected.isEmpty then 0 else CONTEXT_SEPARATOR.length
      let nextTotal := totalChars + separatorLength + block.length
      if cfg.maxContextChars < nextTotal then
        if selected.isEmpty then
          let header := chunkHeader c
          let remaining := cfg.maxContextChars - header.length
          header ++ c.text.take remaining
        else joinBlocks selected
      else toContextGo cfg rest (selected ++ [c]) nextTotal

/-- toContext from the source. -/
def toContext (cfg : RagConfig) (chunks : List RetrievedChunk) : Str :=
  toContextGo cfg chunks [] 0

/-- Rounding to two decimal places: the JavaScript round of one hundred
times the value, divided by one hundred (round half toward positive
infinity, as Math.round does). -/
def round2 (q : ℚ) : ℚ := (round (q * 100) : ℚ) / 100

/-- The deduplication key of buildSources: filename, colon, page number. -/
def sourceKey (filename : Str) (page : Int) : Str := filename ++ ':' :: intStr page

/-- The source entry derived from a chunk. -/
def mkSource (c : RetrievedChunk) : RetrievalSource :=
  ⟨c.filename, c.page_number, round2 c.similarity, c.document_id⟩

/-- The iteration of buildSources: seen keys, accumulated entries, remaining
chunks. -/
def buildSourcesGo (cfg : RagConfig) :
    List Str → List RetrievalSource → List RetrievedChunk → List RetrievalSource
  | _, acc, [] => acc
  | seen, acc, c :: rest =>
    if c.similarity < cfg.minSourceSimilarity then buildSourcesGo cfg seen acc rest
    else
      let key := sourceKey c.filename c.page_number
      if key ∈ seen then buildSourcesGo cfg seen acc rest
      else buildSourcesGo cfg (key :: seen) (acc ++ [mkSource c]) rest

/-- buildSources from the source. -/
def buildSources (cfg : RagConfig) (chunks : List RetrievedChunk) :
    List RetrievalSource :=
  buildSourcesGo cfg [] [] chunks

/-- A row returned by the similarity-search capability; the text may be
absent (the source substitutes the empty string). -/
structure SearchRow where
  document_id : Str
  filename : Str
  page_number : Int
  text : Option Str
  similarity : ℚ
deriving DecidableEq

/-- A row returned by the page-expansion fetch capability. -/
structure PageRow where
  document_id : Str
  filename : Str
  page_number : Int
  text : Option Str
deriving DecidableEq

/-- The chunk built from a search row. -/
def rowChunk (r : SearchRow) : RetrievedChunk :=
  ⟨r.document_id, r.filename, r.page_number, r.text.getD [], r.similarity⟩

/-- The deduplication key of the expansion merge: document id, colon, page
number, colon, the first forty characters of the text. -/
def expandKey (doc : Str) (page : Int) (txt : Str) : Str :=
  doc ++ ':' :: (intStr page ++ ':' :: txt.take 40)

/-- The chunk built from a page-expansion row: similarity zero marks it as
expansion-derived rather than vector-matched. -/
def expandChunk (pc : PageRow) : RetrievedChunk :=
  ⟨pc.document_id, pc.filename, pc.page_number, pc.text.getD [], 0⟩

/-- The merge loop of page expansion: append each page row whose key is not
already present. -/
def mergeExpansionGo : List Str → List RetrievedChunk → List PageRow → List RetrievedChunk
  | _, acc, [] => acc
  | keys, acc, pc :: rest =>
    let key := expandKey pc.document_id pc.page_number (pc.text.getD [])
    if key ∈ keys then mergeExpansionGo keys acc rest
    else mergeExpansionGo (key :: keys) (acc ++ [expandChunk pc]) rest

/-- The merge of page-expansion rows into the chunk list, seeded with the
keys of the existing chunks. -/
def mergeExpansion (chunks : List RetrievedChunk) (pageData : List PageRow) :
    List RetrievedChunk :=
  mergeExpansionGo (chunks.map (fun c => expandKey c.document_id c.page_number c.text))
    chunks pageData

/-- The comparator of the final sort: descending similarity, ties broken by
ascending page number. -/
def chunkLE (a b : RetrievedChunk) : Bool :=
  decide (b.similarity < a.similarity) ||
    (decide (a.similarity = b.similarity) && decide (a.page_number ≤ b.page_number))

/-- The output of the retrieval orchestrator (the rewritten query is handled
by rewriteQueryForRetrieval separately). -/
structure RetrievalResult where
  chunks : List RetrievedChunk
  context : Str
  sources : List RetrievalSource
deriving DecidableEq

/-- The fixed strong-match floor 0.50 that makes a chunk seed page
expansion. -/
def EXPANSION_SIMILARITY_FLOOR : ℚ := mkRat 50 100

/-- retrieveContextForQuery after the query rewrite: the embedding call
(skipped on an embedding-cache hit, its thrown error propagating otherwise),
the similarity search (a thrown error propagating, a null data treated as an
empty row list), and page expansion (derivation of document ids and page
numbers feeds the fetch capability, whose outcome is the pageFetchData
argument; a failed fetch surfaces as no data).  The embedding vector itself
is irrelevant to the returned value and is not modelled. -/
def retrieveContextForQuery {Err : Type} (cfg : RagConfig)
    (embedOutcome : Except Err Unit) (embedCacheHit : Bool)
    (searchOutcome : Except Err (Option (List SearchRow)))
    (pageFetchData : Option (List PageRow)) : Except Err RetrievalResult :=
  match (if embedCacheHit then Except.ok () else embedOutcome) with
  | .error e => .error e
  | .ok _ =>
    match searchOutcome with
    | .error e => .error e
    | .ok data =>
      let chunks := (data.getD []).map rowChunk
      let vectorMatchedChunks :=
        chunks.filter (fun c => decide (EXPANSION_SIMILARITY_FLOOR ≤ c.similarity))
      let expansionSeedChunks := vectorMatchedChunks.take cfg.maxVectorMatchesForExpansion
      let finalChunks :=
        if expansionSeedChunks.isEmpty then chunks
        else
          match pageFetchData with
          | none => chunks
          | some pageData =>
            if pageData.isEmpty then chunks
            else (mergeExpansion chunks pageData).mergeSort chunkLE
      .ok ⟨finalChunks, toContext cfg finalChunks, buildSources cfg finalChunks⟩

/-- A chunk is eligible to produce the source entry s: its similarity is not
below the floor and it carries the filename and page of s. -/
def eligiblePair (cfg : RagConfig) (s : RetrievalSource) (c : RetrievedChunk) : Bool :=
  !decide (c.similarity < cfg.minSourceSimilarity) &&
    (decide (c.filename = s.filename) && decide (c.page_number = s.page))

lemma buildSourcesGo_append (cfg : RagConfig) (rest : List RetrievedChunk) :
    ∀ seen acc, buildSourcesGo cfg seen acc rest = acc ++ buildSourcesGo cfg seen [] rest := by
  induction rest with
  | nil => intro seen acc; simp [buildSourcesGo]
  | cons c rest ih =>
    intro seen acc
    simp only [buildSourcesGo]
    by_cases h1 : c.similarity < cfg.minSourceSimilarity
    · simp only [if_pos h1]
      exact ih seen acc
    · simp only [if_neg h1]
      by_cases h2 : sourceKey c.filename c.page_number ∈ seen
      · simp only [if_pos h2]
        exact ih seen acc
      · simp only [if_neg h2]
        rw [ih _ (acc ++ [mkSource c]), ih _ ([] ++ [mkSource c])]
        simp

lemma sourceKey_mkSource (c : RetrievedChunk) :
    sourceKey (mkSource c).filename (mkSource c).page = sourceKey c.filename c.page_number := rfl

lemma eligiblePair_key {cfg : RagConfig} {s : RetrievalSource} {c : RetrievedChunk}
    (h : eligiblePair cfg s c = true) :
    sourceKey c.filename c.page_number = sourceKey s.filename s.page := by
  simp only [eligiblePair, Bool.and_eq_true, decide_eq_true_eq] at h
  rw [h.2.1, h.2.2]

lemma buildSourcesGo_mem (cfg : RagConfig) (rest : List RetrievedChunk) :
    ∀ seen s, s ∈ buildSourcesGo cfg seen [] rest →
      sourceKey s.filename s.page ∉ seen ∧
        ∃ c, List.find? (eligiblePair cfg s) rest = some c ∧ s = mkSource c := by
  induction rest with
  | nil => intro seen s h; simp [buildSourcesGo] at h
  | cons c rest ih =>
    intro seen s h
    simp only [buildSourcesGo] at h
    by_cases h1 : c.similarity < cfg.minSourceSimilarity
    · rw [if_pos h1] at h
      obtain ⟨hseen, c2, hfind, hs⟩ := ih seen s h
      refine ⟨hseen, c2, ?_, hs⟩
      rw [List.find?_cons]
      have : eligiblePair cfg s c = false := by
        simp [eligiblePair, h1]
      rw [this]
      exact hfind
    · rw [if_neg h1] at h
      by_cases h2 : sourceKey c.filename c.page_number ∈ seen
      · rw [if_pos h2] at h
        obtain ⟨hseen, c2, hfind, hs⟩ := ih seen s h
        refine ⟨hseen, c2, ?_, hs⟩
        rw [List.find?_cons]
        have hne : eligiblePair cfg s c = false := by
          by_contra hcon
          rw [Bool.not_eq_false] at hcon
          exact hseen (eligiblePair_key hcon ▸ h2)
        rw [hne]
        exact hfind
      · rw [if_neg h2, buildSourcesGo_append] at h
        rcases List.mem_append.mp h with hl | hr
        · have hs : s = mkSource c := by simpa using hl
          subst hs
          rw [sourceKey_mkSource]
          refine ⟨h2, c, ?_, rfl⟩
          rw [List.find?_cons]
          have he : eligiblePair cfg (mkSource c) c = true := by
            simp [eligiblePair, h1, mkSource]
          rw [he]
        · obtain ⟨hseen, c2, hfind, hs⟩ :=
            ih (sourceKey c.filename c.page_number :: seen) s hr
          rw [List.mem_cons] at hseen
          push_neg at hseen
          refine ⟨hseen.2, c2, ?_, hs⟩
          rw [List.find?_cons]
          have hne : eligiblePair cfg s c = false := by
            by_contra hcon
            rw [Bool.not_eq_false] at hcon
            exact hseen.1 (eligiblePair_key hcon).symm
          rw [hne]
          exact hfind

lemma buildSourcesGo_pairwise (cfg : RagConfig) (rest : List RetrievedChunk) :
    ∀ seen acc, (∀ s ∈ acc, sourceKey s.filename s.page ∈ seen) →
      acc.Pairwise (fun a b => sourceKey a.filename a.page ≠ sourceKey b.filename b.page) →
      (buildSourcesGo cfg seen acc rest).Pairwise
        (fun a b => sourceKey a.filename a.page ≠ sourceKey b.filename b.page) := by
  induction rest with
  | nil => intro seen acc _ hpw; simpa [buildSourcesGo] using hpw
  | cons c rest ih =>
    intro seen acc hacc hpw
    simp only [buildSourcesGo]
    by_cases h1 : c.similarity < cfg.minSourceSimilarity
    · rw [if_pos h1]
      exact ih seen acc hacc hpw
    · rw [if_neg h1]
      by_cases h2 : sourceKey c.filename c.page_number ∈ seen
      · rw [if_pos h2]
        exact ih seen acc hacc hpw
      · rw [if_neg h2]
        refine ih _ _ ?_ ?_
        · intro s hs
          rcases List.mem_append.mp hs with hl | hr
          · exact List.mem_cons_of_mem _ (hacc s hl)
          · have hsc : s = mkSource c := by simpa using hr
            subst hsc
            rw [sourceKey_mkSource]
            exact List.mem_cons_self _ _
        · rw [List.pairwise_append]
          refine ⟨hpw, by simp, ?_⟩
          intro a ha b hb
          have hb2 : b = mkSource c := by simpa using hb
          subst hb2
          rw [sourceKey_mkSource]
          intro heq
          exact h2 (heq ▸ hacc a ha)

/-- C3: buildSources never returns two entries with the same filename and
page pair; each returned entry is produced (first occurrence wins) by the
first chunk of the input whose similarity is not below minSourceSimilarity
and whose filename and page match the entry, and the entry is that chunk
rendered by mkSource, hence carries its similarity rounded to two decimal
places; in particular no entry arises from a chunk whose similarity is
below minSourceSimilarity. -/
theorem buildSources_dedup_first_and_filtered (cfg : RagConfig)
    (chunks : List RetrievedChunk) :
    (buildSources cfg chunks).Pairwise
      (fun a b => ¬(a.filename = b.filename ∧ a.page = b.page)) ∧
    ∀ s ∈ buildSources cfg chunks,
      ∃ c, List.find? (eligiblePair cfg s) chunks = some c ∧
        cfg.minSourceSimilarity ≤ c.similarity ∧ s = mkSource c := by
  constructor
  · have hpw := buildSourcesGo_pairwise cfg chunks [] [] (by simp) (by simp)
    refine hpw.imp ?_
    intro a b hne hpair
    exact hne (by rw [hpair.1, hpair.2])
  · intro s hs
    obtain ⟨-, c, hfind, hc⟩ := buildSourcesGo_mem cfg chunks [] s hs
    refine ⟨c, hfind, ?_, hc⟩
    have helig := List.find?_some hfind
    simp only [eligiblePair, Bool.and_eq_true, Bool.not_eq_true', decide_eq_false_iff_not,
      not_lt] at helig
    exact helig.1

lemma ccLookup_ccSet_self (k : Str) (e : DomainClassification × Int) :
    ∀ st : ClassCache, ccLookup k (ccSet k e st) = some e := by
  intro st
  induction st with
  | nil => simp [ccSet, ccLookup]
  | cons kv rest ih =>
    obtain ⟨k2, e2⟩ := kv
    by_cases hk : k2 = k
    · simp [ccSet, ccLookup, hk]
    · simp [ccSet, ccLookup, hk, ih]

/-- C6 (amended): a result inserted into the classification cache at time t0
under a normalized key, with nothing else interleaved, is returned unchanged
by a lookup of any query with the same normalized key at any time up to and
including t0 plus the TTL, and is treated as absent at any strictly later
time.  (The source expires with a strict comparison, so the boundary instant
t0 plus TTL is still a hit.) -/
theorem classificationCache_ttl (st : ClassCache) (q1 q2 : Str)
    (r : DomainClassification) (t0 t : Int)
    (hk : getCacheKeyForClassification q1 = getCacheKeyForClassification q2) :
    (t ≤ t0 + CLASSIFICATION_TTL_MS →
      (getCachedClassification q2 (setCachedClassification q1 r st t0) t).1 = some r) ∧
    (t0 + CLASSIFICATION_TTL_MS < t →
      (getCachedClassification q2 (setCachedClassification q1 r st t0) t).1 = none) := by
  have hcc := ccLookup_ccSet_self (getCacheKeyForClassification q1)
    (r, t0 + CLASSIFICATION_TTL_MS) st
  constructor
  · intro ht
    simp only [getCachedClassification, setCachedClassification, ← hk, hcc]
    simp [not_lt.mpr ht]
  · intro ht
    simp only [getCachedClassification, setCachedClassification, ← hk, hcc]
    simp [ht]

/-- C6 witness: a concrete hit strictly inside the TTL window. -/
theorem classificationCache_ttl_witness :
    (getCachedClassification "what is mer".data
      (setCachedClassification "what is mer".data ⟨true, true, "r".data⟩ [] 0) 5).1 =
      some ⟨true, true, "r".data⟩ :=
  (classificationCache_ttl [] "what is mer".data "what is mer".data
    ⟨true, true, "r".data⟩ 0 5 rfl).1 (by decide)

/-- C6 counterexample: a result inserted at time 0 with the two-minute TTL is
still returned by a lookup at time 120000, the instant t0 plus TTL, although
the claim requires the entry to be treated as absent at every time greater
than or equal to t0 plus TTL. -/
theorem classificationCache_boundary_hit :
    (getCachedClassification "how do bonds work".data
      (setCachedClassification "how do bonds work".data ⟨true, true, "m".data⟩ [] 0)
      120000).1 = some ⟨true, true, "m".data⟩ := by
  decide

lemma lruFind_eq_none_iff {K V : Type} [DecidableEq K] (k : K) :
    ∀ m : List (K × V), lruFind k m = none ↔ k ∉ m.map Prod.fst := by
  intro m
  induction m with
  | nil => simp [lruFind]
  | cons kv rest ih =>
    obtain ⟨k2, v⟩ := kv
    by_cases hk : k2 = k
    · subst hk
      simp [lruFind]
    · simp only [lruFind, if_neg hk, List.map_cons, List.mem_cons]
      rw [ih]
      have hne : ¬(k = k2) := fun h => hk h.symm
      tauto

lemma lruFind_of_mem {K V : Type} [DecidableEq K] :
    ∀ m : List (K × V), (m.map Prod.fst).Nodup → ∀ k v, (k, v) ∈ m →
      lruFind k m = some v := by
  intro m
  induction m with
  | nil => intro _ k v hmem; simp at hmem
  | cons kv rest ih =>
    intro hnd k v hmem
    obtain ⟨k2, v2⟩ := kv
    simp only [List.map_cons, List.nodup_cons] at hnd
    rcases List.mem_cons.mp hmem with heq | hmem2
    · obtain ⟨hk, hv⟩ := Prod.mk.injEq .. ▸ heq
      subst hk
      subst hv
      simp [lruFind]
    · have hne : k2 ≠ k := by
        rintro rfl
        exact hnd.1 (List.mem_map_of_mem Prod.fst hmem2)
      simp [lruFind, hne, ih hnd.2 k v hmem2]

lemma keys_lruDelete {K V : Type} [DecidableEq K] (k : K) :
    ∀ m : List (K × V), (lruDelete k m).map Prod.fst = (m.map Prod.fst).erase k := by
  intro m
  induction m with
  | nil => simp [lruDelete]
  | cons kv rest ih =>
    obtain ⟨k2, v2⟩ := kv
    by_cases hk : k2 = k
    · subst hk
      simp [lruDelete, List.erase_cons_head]
    · simp [lruDelete, hk, ih, List.erase_cons, Ne.symm hk]

lemma lruFind_append {K V : Type} [DecidableEq K] (k : K) :
    ∀ m1 m2 : List (K × V), lruFind k (m1 ++ m2) = (lruFind k m1).or (lruFind k m2) := by
  intro m1 m2
  induction m1 with
  | nil => simp [lruFind]
  | cons kv rest ih =>
    obtain ⟨k2, v2⟩ := kv
    by_cases hk : k2 = k
    · simp [lruFind, hk]
    · simp [lruFind, hk, ih]

lemma setAll_fresh_drop {K V : Type} [DecidableEq K] :
    ∀ (kvs : List (K × V)) (c : LRUCache K V),
      1 ≤ c.maxSize → c.map.length ≤ c.maxSize →
      ((c.map ++ kvs).map Prod.fst).Nodup →
      (c.setAll kvs).map = (c.map ++ kvs).drop (c.map.length + kvs.length - c.maxSize) := by
  intro kvs
  induction kvs with
  | nil =>
    intro c h1 h2 _
    simp only [LRUCache.setAll, List.foldl_nil, List.append_nil, List.length_nil,
      Nat.add_zero, Nat.sub_eq_zero_of_le h2, List.drop_zero]
  | cons kv kvs ih =>
    rintro ⟨m, mx⟩ h1 h2 hnd
    obtain ⟨k, v⟩ := kv
    simp only at h1 h2 hnd ⊢
    have hfresh : k ∉ m.map Prod.fst := by
      rw [List.map_append, List.nodup_append] at hnd
      intro hk
      exact hnd.2.2 hk (by simp)
    have hnone : (lruFind k m).isSome = false := by
      rw [(lruFind_eq_none_iff k m).mpr hfresh]
      rfl
    have hsetall : LRUCache.setAll ⟨m, mx⟩ ((k, v) :: kvs) =
        LRUCache.setAll (LRUCache.set ⟨m, mx⟩ k v) kvs := rfl
    rw [hsetall]
    by_cases hfull : mx ≤ m.length
    · have hlen : m.length = mx := le_antisymm h2 hfull
      cases m with
      | nil =>
        exfalso
        rw [← hlen] at h1
        simp at h1
      | cons hd tl =>
        have hfull2 : mx ≤ tl.length + 1 := by simpa using hfull
        have hset : LRUCache.set ⟨hd :: tl, mx⟩ k v = ⟨tl ++ [(k, v)], mx⟩ := by
          simp [LRUCache.set, hnone, hfull2]
        rw [hset]
        have heq : (tl ++ [(k, v)]) ++ kvs = tl ++ (k, v) :: kvs := by simp
        have hnd2 : (((tl ++ [(k, v)]) ++ kvs).map Prod.fst).Nodup := by
          rw [heq]
          have hh : ((hd :: tl ++ (k, v) :: kvs).map Prod.fst).Nodup := hnd
          rw [List.cons_append, List.map_cons, List.nodup_cons] at hh
          exact hh.2
        have hlen1 : tl.length + 1 = mx := by simpa using hlen
        have hlen2 : (tl ++ [(k, v)]).length ≤ mx := by
          simp only [List.length_append, List.length_cons, List.length_nil]
          omega
        rw [ih ⟨tl ++ [(k, v)], mx⟩ h1 hlen2 hnd2]
        have h5 : (tl ++ [(k, v)]).length + kvs.length - mx = kvs.length := by
          simp only [List.length_append, List.length_cons, List.length_nil]
          omega
        have h6 : (hd :: tl).length + ((k, v) :: kvs).length - mx = kvs.length + 1 := by
          simp only [List.length_cons]
          omega
        rw [h5, h6, heq, List.cons_append, List.drop_succ_cons]
    · have hlt : m.length < mx := lt_of_not_ge hfull
      have hset : LRUCache.set ⟨m, mx⟩ k v = ⟨m ++ [(k, v)], mx⟩ := by
        simp [LRUCache.set, hnone, hfull]
      rw [hset]
      have heq : (m ++ [(k, v)]) ++ kvs = m ++ (k, v) :: kvs := by simp
      have hnd2 : (((m ++ [(k, v)]) ++ kvs).map Prod.fst).Nodup := by
        rw [heq]
        exact hnd
      have hlen2 : (m ++ [(k, v)]).length ≤ mx := by
        simp only [List.length_append, List.length_cons, List.length_nil]
        omega
      rw [ih ⟨m ++ [(k, v)], mx⟩ h1 hlen2 hnd2, heq]
      congr 1
      simp only [List.length_append, List.length_cons, List.length_nil]
      omega

/-- C7: the LRU cache bound and recency discipline.  First, a fresh cache of
capacity N at least 1 filled with N plus 1 distinct keys holds exactly N
entries, the first inserted key is evicted, and every later key is still
present with its value.  Second, a get of an existing key refreshes its
recency: in a full cache with at least two entries, after a get of key k a
subsequent insertion of a fresh key evicts some other entry, and k is still
present with its value.  Third, a set of an existing key overwrites it
without evicting: the keys are a permutation of the old keys and the key now
maps to the new value. -/
theorem lruCache_capacity_and_recency (K V : Type) [DecidableEq K] :
    (∀ (N : Nat) (k0 : K) (v0 : V) (rest : List (K × V)),
      1 ≤ N → rest.length = N →
      (((k0, v0) :: rest).map Prod.fst).Nodup →
      ((LRUCache.empty K V N).setAll ((k0, v0) :: rest)).map.length = N ∧
        lruFind k0 ((LRUCache.empty K V N).setAll ((k0, v0) :: rest)).map = none ∧
        ∀ kv ∈ rest,
          lruFind kv.1 ((LRUCache.empty K V N).setAll ((k0, v0) :: rest)).map = some kv.2) ∧
    (∀ (c : LRUCache K V) (k : K) (v : V) (k2 : K) (v2 : V),
      (c.map.map Prod.fst).Nodup → (k, v) ∈ c.map → 2 ≤ c.map.length →
      c.maxSize ≤ c.map.length → k2 ∉ c.map.map Prod.fst →
      lruFind k ((c.get k).2.set k2 v2).map = some v) ∧
    (∀ (c : LRUCache K V) (k : K) (v : V),
      (c.map.map Prod.fst).Nodup → (lruFind k c.map).isSome = true →
      ((c.set k v).map.map Prod.fst).Perm (c.map.map Prod.fst) ∧
        lruFind k (c.set k v).map = some v) := by
  refine ⟨?_, ?_, ?_⟩
  · intro N k0 v0 rest hN hlen hnd
    have hdrop := setAll_fresh_drop ((k0, v0) :: rest) (LRUCache.empty K V N)
      (by simpa [LRUCache.empty] using hN) (by simp [LRUCache.empty])
      (by simpa [LRUCache.empty] using hnd)
    have hmapeq : ((LRUCache.empty K V N).setAll ((k0, v0) :: rest)).map = rest := by
      rw [hdrop]
      simp only [LRUCache.empty, List.nil_append, List.length_nil, List.length_cons,
        hlen, Nat.zero_add]
      have h1 : N + 1 - N = 1 := by omega
      rw [h1]
      rw [List.drop_succ_cons, List.drop_zero]
    simp only [List.map_cons, List.nodup_cons] at hnd
    refine ⟨by rw [hmapeq, hlen], ?_, ?_⟩
    · rw [hmapeq]
      exact (lruFind_eq_none_iff k0 rest).mpr hnd.1
    · intro kv hkv
      rw [hmapeq]
      exact lruFind_of_mem rest hnd.2 kv.1 kv.2 (by simpa using hkv)
  · intro c k v k2 v2 hnd hmem h2 hfull hk2
    have hfind : lruFind k c.map = some v := lruFind_of_mem c.map hnd k v hmem
    have hget : (c.get k).2 = ⟨lruDelete k c.map ++ [(k, v)], c.maxSize⟩ := by
      simp [LRUCache.get, hfind]
    rw [hget]
    have hkeys : (lruDelete k c.map).map Prod.fst = (c.map.map Prod.fst).erase k :=
      keys_lruDelete k c.map
    have hkmem : k ∈ c.map.map Prod.fst := List.mem_map_of_mem Prod.fst hmem
    have hlendel : (lruDelete k c.map).length = c.map.length - 1 := by
      have hlm := congrArg List.length hkeys
      simpa [List.length_erase, hkmem] using hlm
    have hkne : k ≠ k2 := by
      rintro rfl
      exact hk2 hkmem
    have hk2new : (lruFind k2 (lruDelete k c.map ++ [(k, v)])).isSome = false := by
      rw [lruFind_append]
      have e1 : lruFind k2 (lruDelete k c.map) = none := by
        rw [lruFind_eq_none_iff, hkeys]
        intro hmem2
        exact hk2 (List.mem_of_mem_erase hmem2)
      have e2 : lruFind k2 [(k, v)] = none := by simp [lruFind, hkne]
      rw [e1, e2]
      rfl
    have hknotdel : k ∉ (lruDelete k c.map).map Prod.fst := by
      rw [hkeys]
      intro hcon
      exact ((List.Nodup.mem_erase_iff hnd).mp hcon).1 rfl
    obtain ⟨d, t, hdt⟩ : ∃ d t, lruDelete k c.map = d :: t := by
      cases hm : lruDelete k c.map with
      | nil =>
        exfalso
        rw [hm] at hlendel
        simp at hlendel
        omega
      | cons d t => exact ⟨d, t, rfl⟩
    have hlen1 : c.maxSize ≤ (lruDelete k c.map ++ [(k, v)]).length := by
      simp only [List.length_append, List.length_cons, List.length_nil, hlendel]
      omega
    rw [hdt] at hk2new hlen1 hknotdel
    have hsetev :
        (LRUCache.set ⟨(d :: t) ++ [(k, v)], c.maxSize⟩ k2 v2) =
          ⟨(t ++ [(k, v)]) ++ [(k2, v2)], c.maxSize⟩ := by
      have hif : ¬((lruFind k2 ((d :: t) ++ [(k, v)])).isSome = true) := by
        rw [hk2new]
        simp
      unfold LRUCache.set
      rw [if_neg hif, if_pos hlen1]
      simp only [List.cons_append]
    rw [hdt, hsetev]
    rw [lruFind_append, lruFind_append]
    have e3 : lruFind k t = none := by
      rw [lruFind_eq_none_iff]
      intro hcon
      exact hknotdel (by simp [hcon])
    have e4 : lruFind k [(k, v)] = some v := by simp [lruFind]
    rw [e3, e4]
    rfl
  · intro c k v hnd hsome
    have hkmem : k ∈ c.map.map Prod.fst := by
      by_contra hk
      rw [(lruFind_eq_none_iff k c.map).mpr hk] at hsome
      simp at hsome
    have hset : c.set k v = ⟨lruDelete k c.map ++ [(k, v)], c.maxSize⟩ := by
      simp [LRUCache.set, hsome]
    constructor
    · rw [hset]
      simp only [List.map_append, keys_lruDelete, List.map_cons, List.map_nil]
      exact (List.perm_append_singleton _ _).trans (List.perm_cons_erase hkmem).symm
    · rw [hset]
      show lruFind k (lruDelete k c.map ++ [(k, v)]) = some v
      rw [lruFind_append]
      have e1 : lruFind k (lruDelete k c.map) = none := by
        rw [lruFind_eq_none_iff, keys_lruDelete]
        intro hcon
        exact ((List.Nodup.mem_erase_iff hnd).mp hcon).1 rfl
      rw [e1]
      simp [lruFind]

/-- C7 witness: a capacity-two cache receiving three distinct keys evicts
exactly the first key and keeps the other two. -/
theorem lruCache_capacity_witness :
    ((LRUCache.empty Nat Nat 2).setAll ((1, 10) :: [(2, 20), (3, 30)])).map.length = 2 ∧
      lruFind 1 ((LRUCache.empty Nat Nat 2).setAll ((1, 10) :: [(2, 20), (3, 30)])).map =
        none ∧
      ∀ kv ∈ [(2, 20), (3, 30)],
        lruFind kv.1 ((LRUCache.empty Nat Nat 2).setAll ((1, 10) :: [(2, 20), (3, 30)])).map =
          some kv.2 :=
  (lruCache_capacity_and_recency Nat Nat).1 2 1 10 [(2, 20), (3, 30)]
    (by decide) (by decide) (by decide)

lemma shouldBypass_none_iff (q : Str) :
    shouldBypassRewriteModel q none = true ↔
      (lowerStr (trimStr q) = [] ∨
        (testWordPattern REWRITE_CONTEXT_DEPENDENT_WORDS (lowerStr (trimStr q)) = false ∧
          3 < countWords (lowerStr (trimStr q)) ∧ (lowerStr (trimStr q)).length ≤ 220)) := by
  unfold shouldBypassRewriteModel
  simp only [List.isEmpty_nil, Bool.not_false, Bool.false_eq_true, if_false]
  split_ifs with h1 h2 h3 h4 <;> simp_all

lemma shouldBypass_hist (q : Str) (l : List ChatMsg) (hl : l ≠ []) :
    shouldBypassRewriteModel q (some l) = false := by
  have hne : l.isEmpty = false := by
    cases l with
    | nil => exact absurd rfl hl
    | cons a b => rfl
  simp [shouldBypassRewriteModel, hne]

lemma shouldBypass_some_nil (q : Str) :
    shouldBypassRewriteModel q (some []) = shouldBypassRewriteModel q none := rfl

lemma shouldBypass_iff (q : Str) (hist : Option (List ChatMsg)) :
    shouldBypassRewriteModel q hist = true ↔
      ((hist = none ∨ hist = some []) ∧
        (lowerStr (trimStr q) = [] ∨
          (testWordPattern REWRITE_CONTEXT_DEPENDENT_WORDS (lowerStr (trimStr q)) = false ∧
            3 < countWords (lowerStr (trimStr q)) ∧ (lowerStr (trimStr q)).length ≤ 220))) := by
  cases hist with
  | none =>
    rw [shouldBypass_none_iff]
    simp
  | some l =>
    cases l with
    | nil =>
      rw [shouldBypass_some_nil, shouldBypass_none_iff]
      simp
    | cons m rest =>
      rw [shouldBypass_hist q (m :: rest) (by simp)]
      simp

/-- C8 (amended): rewriteQueryForRetrieval skips the completion call and
returns the query unchanged exactly when the history is absent or empty and
the normalized (trimmed, lowercased) query either is empty, or matches no
context-dependency word, has word count strictly above three, and has length
at most 220. -/
theorem rewrite_bypass_iff_amended (q : Str) (hist : Option (List ChatMsg))
    (out : RewriteOutcome) :
    ((rewriteQueryForRetrieval q hist out).2 = false ∧
      (rewriteQueryForRetrieval q hist out).1 = q) ↔
    ((hist = none ∨ hist = some []) ∧
      (lowerStr (trimStr q) = [] ∨
        (testWordPattern REWRITE_CONTEXT_DEPENDENT_WORDS (lowerStr (trimStr q)) = false ∧
          3 < countWords (lowerStr (trimStr q)) ∧ (lowerStr (trimStr q)).length ≤ 220))) := by
  rw [← shouldBypass_iff q hist]
  by_cases hb : shouldBypassRewriteModel q hist = true
  · have hr : rewriteQueryForRetrieval q hist out = (q, false) := by
      simp [rewriteQueryForRetrieval, hb]
    rw [hr]
    simp [hb]
  · have hf : shouldBypassRewriteModel q hist = false := by simpa using hb
    have h2 : (rewriteQueryForRetrieval q hist out).2 = true := by
      cases out with
      | failure => simp [rewriteQueryForRetrieval, hf]
      | success c =>
        cases c with
        | none => simp [rewriteQueryForRetrieval, hf]
        | some s => simp [rewriteQueryForRetrieval, hf]
    constructor
    · intro hL
      rw [h2] at hL
      exact absurd hL.1 (by simp)
    · intro hR
      exact absurd hR hb

/-- C8 counterexample: the empty query with no history is bypassed and
returned unchanged, although its word count is zero and therefore not above
three, so the bypass condition claimed by the specification fails there. -/
theorem rewrite_bypass_empty_query :
    ¬(((rewriteQueryForRetrieval [] none RewriteOutcome.failure).2 = false ∧
        (rewriteQueryForRetrieval [] none RewriteOutcome.failure).1 = ([] : Str)) ↔
      ((none : Option (List ChatMsg)) = none ∧
        testWordPattern REWRITE_CONTEXT_DEPENDENT_WORDS (lowerStr (trimStr ([] : Str))) = false ∧
        3 < countWords (lowerStr (trimStr ([] : Str))) ∧
        (lowerStr (trimStr ([] : Str))).length ≤ 220)) := by
  decide

/-- C9 (amended): for every non-empty query, any history and any completion
outcome, rewriteQueryForRetrieval returns a non-empty string; it returns the
original query when the model is bypassed, when the completion call fails
and when the content is absent; and when the model was called with content,
it returns the trimmed output unless that trim is empty, in which case it
returns the original query. -/
theorem rewrite_nonempty (q : Str) (hist : Option (List ChatMsg)) (out : RewriteOutcome)
    (hq : q ≠ []) :
    (rewriteQueryForRetrieval q hist out).1 ≠ [] ∧
    ((rewriteQueryForRetrieval q hist out).2 = false →
      (rewriteQueryForRetrieval q hist out).1 = q) ∧
    (out = .failure → (rewriteQueryForRetrieval q hist out).1 = q) ∧
    (out = .success none → (rewriteQueryForRetrieval q hist out).1 = q) ∧
    (∀ s, out = .success (some s) → (rewriteQueryForRetrieval q hist out).2 = true →
      (rewriteQueryForRetrieval q hist out).1 = (if trimStr s = [] then q else trimStr s)) := by
  by_cases hb : shouldBypassRewriteModel q hist = true
  · have hr : rewriteQueryForRetrieval q hist out = (q, false) := by
      simp [rewriteQueryForRetrieval, hb]
    rw [hr]
    simp [hq]
  · have hf : shouldBypassRewriteModel q hist = false := by simpa using hb
    cases out with
    | failure =>
      have hr : rewriteQueryForRetrieval q hist .failure = (q, true) := by
        simp [rewriteQueryForRetrieval, hf]
      rw [hr]
      simp [hq]
    | success c =>
      cases c with
      | none =>
        have hr : rewriteQueryForRetrieval q hist (.success none) = (q, true) := by
          simp [rewriteQueryForRetrieval, hf]
        rw [hr]
        simp [hq]
      | some s =>
        have hr : rewriteQueryForRetrieval q hist (.success (some s)) =
            (if trimStr s = [] then q else trimStr s, true) := by
          simp [rewriteQueryForRetrieval, hf]
        rw [hr]
        by_cases ht : trimStr s = []
        · simp [ht, hq]
        · simp [ht, hq]

/-- C9 witness: a concrete non-empty query with a failing completion call
returns the query itself, which is non-empty. -/
theorem rewrite_nonempty_witness :
    (rewriteQueryForRetrieval "what is mer".data none RewriteOutcome.failure).1 ≠ [] :=
  (rewrite_nonempty "what is mer".data none RewriteOutcome.failure (by decide)).1

/-- C9 counterexample: the empty query is bypassed and returned as the empty
string, so the rewrite does not always return a non-empty string. -/
theorem rewrite_empty_query_empty_result :
    (rewriteQueryForRetrieval [] none (RewriteOutcome.success (some "hi".data))).1 = [] := by
  decide

lemma chunkBlock_ne_nil (c : RetrievedChunk) : chunkBlock c ≠ [] := by
  simp [chunkBlock, chunkHeader]

lemma joinBlocks_ne_nil : ∀ sel : List RetrievedChunk, sel ≠ [] → joinBlocks sel ≠ [] := by
  intro sel hne
  cases sel with
  | nil => exact absurd rfl hne
  | cons a rest =>
    cases rest with
    | nil => exact chunkBlock_ne_nil a
    | cons b rest2 =>
      simp only [joinBlocks]
      intro hcon
      exact chunkBlock_ne_nil a (List.append_eq_nil.mp
        (List.append_eq_nil.mp hcon).1).1

lemma joinBlocks_append : ∀ (sel : List RetrievedChunk) (c : RetrievedChunk),
    joinBlocks (sel ++ [c]) =
      if sel.isEmpty then chunkBlock c
      else joinBlocks sel ++ (CONTEXT_SEPARATOR ++ chunkBlock c) := by
  intro sel
  induction sel with
  | nil => intro c; simp [joinBlocks]
  | cons a rest ih =>
    intro c
    cases rest with
    | nil => simp [joinBlocks]
    | cons b rest2 =>
      have h1 : (a :: b :: rest2) ++ [c] = a :: ((b :: rest2) ++ [c]) := rfl
      rw [h1]
      have h2 : (b :: rest2) ++ [c] = b :: (rest2 ++ [c]) := rfl
      have h3 : joinBlocks (a :: ((b :: rest2) ++ [c])) =
          chunkBlock a ++ CONTEXT_SEPARATOR ++ joinBlocks ((b :: rest2) ++ [c]) := by
        rw [h2]
        cases rest2 with
        | nil => simp [joinBlocks]
        | cons d rest3 => simp [joinBlocks]
      rw [h3, ih c]
      simp [joinBlocks, List.append_assoc]

lemma toContextGo_ne_nil (cfg : RagConfig) :
    ∀ (rest selected : List RetrievedChunk) (totalChars : Nat), selected ≠ [] →
      toContextGo cfg rest selected totalChars ≠ [] := by
  intro rest
  induction rest with
  | nil =>
    intro selected totalChars hne
    exact joinBlocks_ne_nil selected hne
  | cons c rest ih =>
    intro selected totalChars hne
    simp only [toContextGo]
    by_cases hbreak : cfg.maxContextChunks ≤ selected.length
    · rw [if_pos hbreak]
      exact joinBlocks_ne_nil selected hne
    · rw [if_neg hbreak]
      have hni : selected.isEmpty = false := by
        cases selected with
        | nil => exact absurd rfl hne
        | cons x y => rfl
      simp only [hni, Bool.false_eq_true, if_false]
      by_cases hover : cfg.maxContextChars <
          totalChars + CONTEXT_SEPARATOR.length + (chunkBlock c).length
      · rw [if_pos hover]
        exact joinBlocks_ne_nil selected hne
      · rw [if_neg hover]
        exact ih (selected ++ [c]) _ (by simp)

lemma toContextGo_length (cfg : RagConfig) :
    ∀ (rest selected : List RetrievedChunk) (totalChars : Nat), selected ≠ [] →
      totalChars = (joinBlocks selected).length →
      totalChars ≤ cfg.maxContextChars →
      (toContextGo cfg rest selected totalChars).length ≤ cfg.maxContextChars := by
  intro rest
  induction rest with
  | nil =>
    intro selected totalChars _ hinv hle
    simpa only [toContextGo, ← hinv] using hle
  | cons c rest ih =>
    intro selected totalChars hne hinv hle
    simp only [toContextGo]
    by_cases hbreak : cfg.maxContextChunks ≤ selected.length
    · rw [if_pos hbreak]
      rw [← hinv]
      exact hle
    · rw [if_neg hbreak]
      have hni : selected.isEmpty = false := by
        cases selected with
        | nil => exact absurd rfl hne
        | cons x y => rfl
      simp only [hni, Bool.false_eq_true, if_false]
      by_cases hover : cfg.maxContextChars <
          totalChars + CONTEXT_SEPARATOR.length + (chunkBlock c).length
      · rw [if_pos hover]
        rw [← hinv]
        exact hle
      · rw [if_neg hover]
        refine ih (selected ++ [c]) _ (by simp) ?_ (le_of_not_lt hover)
        rw [joinBlocks_append, hni]
        simp only [Bool.false_eq_true, if_false, List.length_append, hinv]
        omega

/-- C1 (amended): for every loaded configuration and chunk sequence, the
assembled context has length at most the maximum of maxContextChars and the
length of the first chunk's header; whenever the first chunk's header fits
within maxContextChars (in particular for every realistic filename) the
context length is at most maxContextChars; and the context is empty exactly
when the chunk sequence is empty.  The unbounded term accounts for the
truncation edge case, which always keeps the full header even when the
header alone exceeds the budget. -/
theorem toContext_budget (cfg : RagConfig) (hcfg : cfg.Loaded)
    (chunks : List RetrievedChunk) :
    (toContext cfg chunks).length ≤
      max cfg.maxContextChars
        ((chunks.head?.map (fun c => (chunkHeader c).length)).getD 0) ∧
    (∀ c rest, chunks = c :: rest → (chunkHeader c).length ≤ cfg.maxContextChars →
      (toContext cfg chunks).length ≤ cfg.maxContextChars) ∧
    (toContext cfg chunks = [] ↔ chunks = []) := by
  obtain ⟨-, -, -, -, -, -, -, hchunks, -⟩ := hcfg
  cases chunks with
  | nil =>
    refine ⟨by simp [toContext, toContextGo, joinBlocks], ?_, by simp [toContext, toContextGo, joinBlocks]⟩
    intro c rest h
    exact absurd h (by simp)
  | cons c rest =>
    have hnobreak : ¬(cfg.maxContextChunks ≤ ([] : List RetrievedChunk).length) := by
      simp only [List.length_nil]
      omega
    have hstep : toContext cfg (c :: rest) =
        (if cfg.maxContextChars < 0 + 0 + (chunkBlock c).length then
          chunkHeader c ++ c.text.take (cfg.maxContextChars - (chunkHeader c).length)
        else toContextGo cfg rest [c] (0 + 0 + (chunkBlock c).length)) := by
      simp only [toContext, toContextGo, if_neg hnobreak, List.isEmpty_nil, if_true, if_pos]
      rfl
    by_cases hover : cfg.maxContextChars < 0 + 0 + (chunkBlock c).length
    · rw [hstep, if_pos hover]
      have hlen : (chunkHeader c ++ c.text.take
          (cfg.maxContextChars - (chunkHeader c).length)).length ≤
          max cfg.maxContextChars (chunkHeader c).length := by
        rw [List.length_append, List.length_take]
        rcases le_or_lt (chunkHeader c).length cfg.maxContextChars with hc | hc
        · have : (chunkHeader c).length + min (cfg.maxContextChars - (chunkHeader c).length)
              c.text.length ≤ cfg.maxContextChars := by omega
          exact le_trans this (le_max_left _ _)
        · have h0 : cfg.maxContextChars - (chunkHeader c).length = 0 := by omega
          rw [h0]
          simp
      refine ⟨by simpa using hlen, ?_, ?_⟩
      · intro c2 rest2 heq hfit
        obtain ⟨rfl, rfl⟩ : c2 = c ∧ rest2 = rest := by
          constructor <;> injection heq <;> simp_all
        refine le_trans hlen ?_
        omega
      · constructor
        · intro hcon
          exact absurd (List.append_eq_nil.mp hcon).1 (by simp [chunkHeader])
        · intro hcon
          exact absurd hcon (by simp)
    · have hinv : 0 + 0 + (chunkBlock c).length = (joinBlocks [c]).length := by
        simp [joinBlocks]
      have hmain : (toContextGo cfg rest [c] (0 + 0 + (chunkBlock c).length)).length ≤
          cfg.maxContextChars :=
        toContextGo_length cfg rest [c] _ (by simp) hinv (le_of_not_lt hover)
      rw [hstep, if_neg hover]
      refine ⟨le_trans hmain (le_max_left _ _), fun _ _ _ _ => hmain, ?_, ?_⟩
      · intro hcon
        exact absurd hcon (toContextGo_ne_nil cfg rest [c] _ (by simp))
      · intro hcon
        exact absurd hcon (by simp)

/-- A loaded configuration used for concrete instances: the default
thresholds of ragConfig.ts with the minimum context budget of 1000. -/
def sampleConfig : RagConfig := ⟨mkRat 38 100, 6, mkRat 45 100, 6, 6, 14, 1000⟩

lemma sampleConfig_loaded : sampleConfig.Loaded := by
  refine ⟨?_, ?_, ?_, ?_, ?_, ?_, ?_, ?_, ?_⟩ <;>
    norm_num [sampleConfig, Rat.mkRat_eq_div]

/-- C1 witness: a modest chunk stays within the budget and yields a
non-empty context. -/
theorem toContext_budget_witness :
    (toContext sampleConfig [⟨"d".data, "f.pdf".data, 19, "hello".data, mkRat 6 10⟩]).length ≤
      max sampleConfig.maxContextChars
        ((([(⟨"d".data, "f.pdf".data, 19, "hello".data, mkRat 6 10⟩ : RetrievedChunk)]).head?.map
          (fun c => (chunkHeader c).length)).getD 0) :=
  (toContext_budget sampleConfig sampleConfig_loaded
    [⟨"d".data, "f.pdf".data, 19, "hello".data, mkRat 6 10⟩]).1

/-- The chunk of the C1 counterexample: a filename of one thousand
characters makes the header alone 1011 characters long. -/
def longNameChunk : RetrievedChunk :=
  ⟨"d".data, List.replicate 1000 'a', 1, "xyz".data, mkRat 6 10⟩

/-- C1 counterexample: under a loaded configuration with the minimum budget
of 1000 characters, a single chunk whose header alone exceeds the budget
makes toContext return the full header, 1011 characters, strictly exceeding
maxContextChars; the truncation edge case truncates only the text, never the
header. -/
theorem toContext_exceeds_budget :
    sampleConfig.Loaded ∧
      sampleConfig.maxContextChars < (toContext sampleConfig [longNameChunk]).length := by
  constructor
  · exact sampleConfig_loaded
  · have h7 : (", Page ".data : Str).length = 7 := rfl
    have h2 : ("]\n".data : Str).length = 2 := rfl
    have hint : (intStr 1).length = 1 := rfl
    have hhead : (chunkHeader longNameChunk).length = 1011 := by
      simp only [chunkHeader, longNameChunk, List.length_cons, List.length_append,
        List.length_replicate, h7, h2, hint]
    have htext : longNameChunk.text.length = 3 := rfl
    have hblock : (chunkBlock longNameChunk).length = 1014 := by
      simp only [chunkBlock, List.length_append, hhead, htext]
    have hnobreak : ¬(sampleConfig.maxContextChunks ≤ ([] : List RetrievedChunk).length) := by
      simp [sampleConfig]
    have hover : sampleConfig.maxContextChars < 0 + 0 + (chunkBlock longNameChunk).length := by
      rw [hblock]
      norm_num [sampleConfig]
    have hstep : toContext sampleConfig [longNameChunk] =
        chunkHeader longNameChunk ++ longNameChunk.text.take
          (sampleConfig.maxContextChars - (chunkHeader longNameChunk).length) := by
      simp only [toContext, toContextGo, if_neg hnobreak, List.isEmpty_nil, if_true,
        if_pos hover]
    have hz : sampleConfig.maxContextChars - (chunkHeader longNameChunk).length = 0 := by
      rw [hhead]
      norm_num [sampleConfig]
    rw [hstep, hz, List.take_zero, List.append_nil, hhead]
    norm_num [sampleConfig]


lemma chunkLE_iff (a b : RetrievedChunk) :
    chunkLE a b = true ↔
      (b.similarity < a.similarity ∨
        (a.similarity = b.similarity ∧ a.page_number ≤ b.page_number)) := by
  simp [chunkLE]

lemma chunkLE_trans (a b c : RetrievedChunk) (hab : chunkLE a b = true)
    (hbc : chunkLE b c = true) : chunkLE a c = true := by
  rw [chunkLE_iff] at hab hbc ⊢
  rcases hab with h1 | ⟨h1e, h1p⟩ <;> rcases hbc with h2 | ⟨h2e, h2p⟩
  · exact Or.inl (lt_trans h2 h1)
  · exact Or.inl (h2e ▸ h1)
  · exact Or.inl (h1e.symm ▸ h2)
  · exact Or.inr ⟨h1e.trans h2e, le_trans h1p h2p⟩

lemma chunkLE_total (a b : RetrievedChunk) : (chunkLE a b || chunkLE b a) = true := by
  rw [Bool.or_eq_true, chunkLE_iff, chunkLE_iff]
  rcases lt_trichotomy a.similarity b.similarity with h | h | h
  · exact Or.inr (Or.inl h)
  · rcases le_total a.page_number b.page_number with hp | hp
    · exact Or.inl (Or.inr ⟨h, hp⟩)
    · exact Or.inr (Or.inr ⟨h.symm, hp⟩)
  · exact Or.inl (Or.inl h)

lemma mergeExpansionGo_mem :
    ∀ (pageData : List PageRow) (keys : List Str) (acc : List RetrievedChunk)
      (c : RetrievedChunk), c ∈ mergeExpansionGo keys acc pageData →
        c ∈ acc ∨ c.similarity = 0 := by
  intro pageData
  induction pageData with
  | nil =>
    intro keys acc c h
    exact Or.inl (by simpa [mergeExpansionGo] using h)
  | cons pc rest ih =>
    intro keys acc c h
    simp only [mergeExpansionGo] at h
    by_cases hk : expandKey pc.document_id pc.page_number (pc.text.getD []) ∈ keys
    · rw [if_pos hk] at h
      exact ih keys acc c h
    · rw [if_neg hk] at h
      rcases ih _ _ c h with hacc | hzero
      · rcases List.mem_append.mp hacc with hl | hr
        · exact Or.inl hl
        · right
          have hc : c = expandChunk pc := by simpa using hr
          rw [hc]
          rfl
      · exact Or.inr hzero

lemma mergeExpansion_mem (chunks : List RetrievedChunk) (pd : List PageRow)
    (c : RetrievedChunk) (h : c ∈ mergeExpansion chunks pd) :
    c ∈ chunks ∨ c.similarity = 0 :=
  mergeExpansionGo_mem pd _ chunks c h

lemma retrieve_ok_shape {Err : Type} (cfg : RagConfig) (embedOutcome : Except Err Unit)
    (embedCacheHit : Bool) (data : Option (List SearchRow))
    (pageFetchData : Option (List PageRow)) (res : RetrievalResult)
    (hres : retrieveContextForQuery cfg embedOutcome embedCacheHit (.ok data)
      pageFetchData = .ok res) :
    res.context = toContext cfg res.chunks ∧
    res.sources = buildSources cfg res.chunks ∧
    (res.chunks = (data.getD []).map rowChunk ∨
      ∃ pd, pageFetchData = some pd ∧ pd ≠ [] ∧
        res.chunks =
          (mergeExpansion ((data.getD []).map rowChunk) pd).mergeSort chunkLE) := by
  cases hif : (if embedCacheHit then (Except.ok () : Except Err Unit) else embedOutcome) with
  | error e =>
    simp only [retrieveContextForQuery, hif] at hres
    exact absurd hres (by simp)
  | ok u =>
    simp only [retrieveContextForQuery, hif, Except.ok.injEq] at hres
    subst hres
    refine ⟨rfl, rfl, ?_⟩
    simp only []
    split
    · exact Or.inl rfl
    · cases pageFetchData with
      | none => exact Or.inl rfl
      | some pd =>
        dsimp only
        by_cases hpd : pd.isEmpty
        · rw [if_pos hpd]
          exact Or.inl rfl
        · rw [if_neg hpd]
          exact Or.inr ⟨pd, rfl, by simpa using hpd, rfl⟩

/-- C4: assuming the similarity search returns rows ordered by descending
similarity, each with similarity above the (nonnegative, loaded) match
threshold, the chunk list of a successful retrieveContextForQuery places
every vector-matched chunk (positive similarity) before every page-expanded
chunk (similarity zero), keeps vector-matched chunks in descending
similarity order, and keeps page-expanded chunks in ascending page-number
order. -/
theorem retrieve_chunk_order {Err : Type} (cfg : RagConfig) (hcfg : cfg.Loaded)
    (embedOutcome : Except Err Unit) (embedCacheHit : Bool)
    (rows : List SearchRow) (pageFetchData : Option (List PageRow))
    (res : RetrievalResult)
    (hsorted : rows.Pairwise (fun a b => b.similarity ≤ a.similarity))
    (hthresh : ∀ r ∈ rows, cfg.matchThreshold < r.similarity)
    (hres : retrieveContextForQuery cfg embedOutcome embedCacheHit
      (.ok (some rows)) pageFetchData = .ok res) :
    res.chunks.Pairwise (fun a b => a.similarity = 0 → b.similarity = 0) ∧
    res.chunks.Pairwise (fun a b => 0 < a.similarity → 0 < b.similarity →
      b.similarity ≤ a.similarity) ∧
    res.chunks.Pairwise (fun a b => a.similarity = 0 → b.similarity = 0 →
      a.page_number ≤ b.page_number) := by
  obtain ⟨hmt, -⟩ := hcfg
  have hpos : ∀ c ∈ rows.map rowChunk, 0 < c.similarity := by
    intro c hc
    obtain ⟨r, hr, rfl⟩ := List.mem_map.mp hc
    exact lt_of_le_of_lt hmt (hthresh r hr)
  obtain ⟨-, -, hshape⟩ := retrieve_ok_shape cfg embedOutcome embedCacheHit
    (some rows) pageFetchData res hres
  rcases hshape with hplain | ⟨pd, -, -, hsort⟩
  · simp only [Option.getD_some] at hplain
    have hdesc : (rows.map rowChunk).Pairwise
        (fun a b => b.similarity ≤ a.similarity) := by
      rw [List.pairwise_map]
      exact hsorted
    rw [hplain]
    refine ⟨?_, ?_, ?_⟩
    · refine hdesc.imp_of_mem ?_
      intro a b ha _ _ hza
      exact absurd (hza ▸ hpos a ha) (lt_irrefl 0)
    · exact hdesc.imp (fun h _ _ => h)
    · refine hdesc.imp_of_mem ?_
      intro a b ha _ _ hza _
      exact absurd (hza ▸ hpos a ha) (lt_irrefl 0)
  · simp only [Option.getD_some] at hsort
    have hperm := List.mergeSort_perm (mergeExpansion (rows.map rowChunk) pd) chunkLE
    have hmem0 : ∀ c ∈ (mergeExpansion (rows.map rowChunk) pd).mergeSort chunkLE,
        0 ≤ c.similarity := by
      intro c hc
      rcases mergeExpansion_mem _ pd c (hperm.mem_iff.mp hc) with hv | hz
      · exact le_of_lt (hpos c hv)
      · exact le_of_eq hz.symm
    have hsorted2 := List.sorted_mergeSort chunkLE_trans chunkLE_total
      (mergeExpansion (rows.map rowChunk) pd)
    rw [hsort]
    refine ⟨?_, ?_, ?_⟩
    · refine hsorted2.imp_of_mem ?_
      intro a b _ hb hle hza
      rcases (chunkLE_iff a b).mp hle with h | ⟨he, -⟩
      · exact absurd (hza ▸ h) (not_lt.mpr (hmem0 b hb))
      · exact he ▸ hza
    · refine hsorted2.imp ?_
      intro a b hle _ _
      rcases (chunkLE_iff a b).mp hle with h | ⟨he, -⟩
      · exact le_of_lt h
      · exact le_of_eq he.symm
    · refine hsorted2.imp ?_
      intro a b hle hza hzb
      rcases (chunkLE_iff a b).mp hle with h | ⟨-, hp⟩
      · exact absurd (hzb ▸ hza ▸ h) (lt_irrefl 0)
      · exact hp

/-- C5 (amended): assuming the embedding step succeeds (an embedding-cache
hit or a successful embedding call), retrieveContextForQuery propagates
exactly the similarity-search error and succeeds otherwise; and when the
page-expansion fetch fails (no data) or returns no rows, the call still
succeeds with the chunk list exactly the vector-search chunks.  An
embedding-capability failure on a cache miss also propagates, the single
exception to the claimed equivalence. -/
theorem retrieve_error_propagation {Err : Type} (cfg : RagConfig)
    (embedOutcome : Except Err Unit) (embedCacheHit : Bool)
    (searchOutcome : Except Err (Option (List SearchRow)))
    (pageFetchData : Option (List PageRow))
    (hembed : embedCacheHit = true ∨ embedOutcome = .ok ()) :
    (∀ e, searchOutcome = .error e →
      retrieveContextForQuery cfg embedOutcome embedCacheHit searchOutcome
        pageFetchData = .error e) ∧
    (∀ data, searchOutcome = .ok data →
      ∃ res, retrieveContextForQuery cfg embedOutcome embedCacheHit searchOutcome
        pageFetchData = .ok res) ∧
    (∀ data res, searchOutcome = .ok data →
      (pageFetchData = none ∨ pageFetchData = some []) →
      retrieveContextForQuery cfg embedOutcome embedCacheHit searchOutcome
        pageFetchData = .ok res →
      res.chunks = (data.getD []).map rowChunk) := by
  have hem : (if embedCacheHit then (Except.ok () : Except Err Unit)
      else embedOutcome) = .ok () := by
    rcases hembed with h | h
    · rw [h]
      rfl
    · cases embedCacheHit
      · simpa using h
      · rfl
  refine ⟨?_, ?_, ?_⟩
  · intro e he
    subst he
    simp only [retrieveContextForQuery, hem]
  · intro data hd
    subst hd
    simp only [retrieveContextForQuery, hem]
    exact ⟨_, rfl⟩
  · intro data res hd hpage hres
    subst hd
    obtain ⟨-, -, hshape⟩ := retrieve_ok_shape cfg embedOutcome embedCacheHit
      data pageFetchData res hres
    rcases hshape with hplain | ⟨pd, hpd, hpdne, -⟩
    · exact hplain
    · rcases hpage with h | h
      · rw [h] at hpd
        exact absurd hpd (by simp)
      · rw [h] at hpd
        obtain rfl : pd = [] := by
          injection hpd with h2
          exact h2.symm
        exact absurd rfl hpdne

/-- C5 witness: with the embedding step succeeding, a similarity-search
error propagates unchanged. -/
theorem retrieve_error_propagation_witness :
    retrieveContextForQuery sampleConfig ((Except.ok ()) : Except Nat Unit) false
      (.error 3) none = .error 3 :=
  (retrieve_error_propagation sampleConfig (.ok ()) false (.error 3) none
    (Or.inr rfl)).1 3 rfl

/-- C5 counterexample: the similarity search succeeds, yet the call raises,
because the embedding call failed on an embedding-cache miss and its error
propagates; so an error is not raised only when the search errors. -/
theorem retrieve_embed_error_raises :
    retrieveContextForQuery sampleConfig ((Except.error 7) : Except Nat Unit) false
      (.ok (some [])) none = .error 7 := rfl

/-- The search rows of the concrete retrieval instances: two rows of the
same document, descending similarity, pages 19 and 30. -/
def c4rows : List SearchRow :=
  [⟨"doc".data, "f.pdf".data, 19, some "alpha".data, mkRat 6 10⟩,
   ⟨"doc".data, "f.pdf".data, 30, some "beta".data, mkRat 55 100⟩]

/-- The chunks of the concrete retrieval instances. -/
def c4chunks : List RetrievedChunk := c4rows.map rowChunk

/-- The result of the concrete retrieval instance with no page-fetch data. -/
def c4res : RetrievalResult :=
  ⟨c4chunks, toContext sampleConfig c4chunks, buildSources sampleConfig c4chunks⟩

/-- C4 witness: the ordering properties at a concrete retrieval. -/
theorem retrieve_chunk_order_witness :
    c4res.chunks.Pairwise (fun a b => a.similarity = 0 → b.similarity = 0) ∧
    c4res.chunks.Pairwise (fun a b => 0 < a.similarity → 0 < b.similarity →
      b.similarity ≤ a.similarity) ∧
    c4res.chunks.Pairwise (fun a b => a.similarity = 0 → b.similarity = 0 →
      a.page_number ≤ b.page_number) :=
  retrieve_chunk_order sampleConfig sampleConfig_loaded
    ((Except.ok ()) : Except Unit Unit) false
    c4rows none c4res (by decide) (by decide) rfl

/-- C10: whenever minSourceSimilarity is positive, every chunk of a
successful retrieval is either a vector-search chunk or carries similarity
zero, and every source entry originates from a vector-search chunk whose
similarity is at least minSourceSimilarity; page-expansion chunks never
contribute a citation. -/
theorem retrieve_sources_vector_only {Err : Type} (cfg : RagConfig)
    (hmin : 0 < cfg.minSourceSimilarity)
    (embedOutcome : Except Err Unit) (embedCacheHit : Bool)
    (data : Option (List SearchRow)) (pageFetchData : Option (List PageRow))
    (res : RetrievalResult)
    (hres : retrieveContextForQuery cfg embedOutcome embedCacheHit (.ok data)
      pageFetchData = .ok res) :
    (∀ c ∈ res.chunks, c ∈ (data.getD []).map rowChunk ∨ c.similarity = 0) ∧
    ∀ s ∈ res.sources, ∃ c ∈ (data.getD []).map rowChunk,
      cfg.minSourceSimilarity ≤ c.similarity ∧ s = mkSource c := by
  obtain ⟨-, hsrc, hshape⟩ := retrieve_ok_shape cfg embedOutcome embedCacheHit data
    pageFetchData res hres
  have hmem : ∀ c ∈ res.chunks, c ∈ (data.getD []).map rowChunk ∨ c.similarity = 0 := by
    rcases hshape with hplain | ⟨pd, -, -, hsort⟩
    · intro c hc
      exact Or.inl (hplain ▸ hc)
    · intro c hc
      rw [hsort] at hc
      have hperm := List.mergeSort_perm
        (mergeExpansion ((data.getD []).map rowChunk) pd) chunkLE
      exact mergeExpansion_mem _ pd c (hperm.mem_iff.mp hc)
  refine ⟨hmem, ?_⟩
  intro s hs
  rw [hsrc] at hs
  obtain ⟨-, c, hfind, hsmk⟩ := buildSourcesGo_mem cfg res.chunks [] s hs
  have helig := List.find?_some hfind
  simp only [eligiblePair, Bool.and_eq_true, Bool.not_eq_true', decide_eq_false_iff_not,
    not_lt] at helig
  have hcmem := List.mem_of_find?_eq_some hfind
  rcases hmem c hcmem with hv | hz
  · exact ⟨c, hv, helig.1, hsmk⟩
  · exfalso
    have h0 := helig.1
    rw [hz] at h0
    exact absurd (lt_of_lt_of_le hmin h0) (lt_irrefl 0)

/-- C10 witness: the source property at a concrete retrieval with a positive
minimum source similarity. -/
theorem retrieve_sources_vector_only_witness :
    c4res.sources.Forall (fun s => ∃ c ∈ c4rows.map rowChunk,
      sampleConfig.minSourceSimilarity ≤ c.similarity ∧ s = mkSource c) :=
  List.forall_iff_forall_mem.mpr
    ((retrieve_sources_vector_only sampleConfig
      (by norm_num [sampleConfig, Rat.mkRat_eq_div])
      ((Except.ok ()) : Except Unit Unit) false (some c4rows) none
      c4res rfl).2)

lemma matchHere_iff (prev : Option Char) (s p : Str) :
    matchHere prev s p = true ↔
      ∃ post, s = p ++ post ∧ nonWordOpt prev = true ∧
        nonWordOpt post.head? = true := by
  simp only [matchHere, Bool.and_eq_true, decide_eq_true_eq]
  constructor
  · rintro ⟨⟨hp, hprev⟩, hafter⟩
    obtain ⟨post, rfl⟩ := hp
    refine ⟨post, rfl, hprev, ?_⟩
    rwa [List.drop_left] at hafter
  · rintro ⟨post, rfl, hprev, hafter⟩
    exact ⟨⟨⟨post, rfl⟩, hprev⟩, by rwa [List.drop_left]⟩

/-- The character immediately preceding the current scan position, given the
consumed prefix pre and the character consumed before pre. -/
def prevOf (prev : Option Char) (pre : Str) : Option Char :=
  match pre.getLast? with
  | some c => some c
  | none => prev

lemma prevOf_cons (prev : Option Char) (c : Char) (pre : Str) :
    prevOf prev (c :: pre) = prevOf (some c) pre := by
  cases pre with
  | nil => rfl
  | cons d rest =>
    have hx : ∃ x, (d :: rest).getLast? = some x := by
      cases hy : (d :: rest).getLast? with
      | none => exact absurd (List.getLast?_eq_none_iff.mp hy) (by simp)
      | some x => exact ⟨x, rfl⟩
    obtain ⟨x, hx⟩ := hx
    simp [prevOf, List.getLast?_cons_cons, hx]

lemma prevOf_none (pre : Str) : prevOf none pre = pre.getLast? := by
  cases h : pre.getLast? <;> simp [prevOf, h]

lemma boundaryScan_iff (p : Str) :
    ∀ (s : Str) (prev : Option Char),
      boundaryScan p prev s = true ↔
        ∃ pre post, s = pre ++ (p ++ post) ∧
          nonWordOpt (prevOf prev pre) = true ∧ nonWordOpt post.head? = true := by
  intro s
  induction s with
  | nil =>
    intro prev
    simp only [boundaryScan]
    rw [matchHere_iff]
    constructor
    · rintro ⟨post, heq, hprev, hpost⟩
      exact ⟨[], post, by simpa using heq, by simpa [prevOf] using hprev, hpost⟩
    · rintro ⟨pre, post, heq, hb, ha⟩
      rw [eq_comm, List.append_eq_nil] at heq
      obtain ⟨rfl, heq2⟩ := heq
      exact ⟨post, heq2.symm, by simpa [prevOf] using hb, ha⟩
  | cons c rest ih =>
    intro prev
    simp only [boundaryScan, Bool.or_eq_true]
    rw [matchHere_iff, ih (some c)]
    constructor
    · rintro (⟨post, heq, hprev, hpost⟩ | ⟨pre, post, heq, hb, ha⟩)
      · exact ⟨[], post, by simpa using heq, by simpa [prevOf] using hprev, hpost⟩
      · refine ⟨c :: pre, post, by simp [heq], ?_, ha⟩
        rwa [prevOf_cons]
    · rintro ⟨pre, post, heq, hb, ha⟩
      cases pre with
      | nil =>
        left
        refine ⟨post, by simpa using heq, by simpa [prevOf] using hb, ha⟩
      | cons c2 pre2 =>
        right
        have hc : c2 = c ∧ rest = pre2 ++ (p ++ post) := by
          rw [List.cons_append] at heq
          exact ⟨(List.cons.injEq .. ▸ heq).1.symm, (List.cons.injEq .. ▸ heq).2⟩
        obtain ⟨rfl, hrest⟩ := hc
        refine ⟨pre2, post, hrest, ?_, ha⟩
        rwa [prevOf_cons] at hb

lemma wordBoundaryMatch_iff (s p : Str) :
    wordBoundaryMatch s p = true ↔
      ∃ pre post, s = pre ++ (p ++ post) ∧
        nonWordOpt pre.getLast? = true ∧ nonWordOpt post.head? = true := by
  rw [wordBoundaryMatch, boundaryScan_iff]
  constructor
  · rintro ⟨pre, post, heq, hb, ha⟩
    rw [prevOf_none] at hb
    exact ⟨pre, post, heq, hb, ha⟩
  · rintro ⟨pre, post, heq, hb, ha⟩
    rw [← prevOf_none] at hb
    exact ⟨pre, post, heq, hb, ha⟩

/-- The first character of a phrase is a word character. -/
def headWordChar (p : Str) : Bool :=
  match p.head? with
  | some c => isWordChar c
  | none => false

/-- The final character of a phrase is a word character. -/
def lastWordChar (p : Str) : Bool :=
  match p.getLast? with
  | some c => isWordChar c
  | none => false

lemma ws_not_word {c : Char} (h : isJsSpace c = true) : isWordChar c = false := by
  simp only [isJsSpace, Bool.or_eq_true, decide_eq_true_eq] at h
  rcases h with ((((((h | h) | h) | h) | h) | h) | h) <;> subst h <;> rfl

lemma headWordChar_head {p : Str} (h : headWordChar p = true) :
    ∃ c rest, p = c :: rest ∧ isWordChar c = true := by
  cases p with
  | nil => exact absurd h (by simp [headWordChar])
  | cons c rest =>
    refine ⟨c, rest, rfl, ?_⟩
    simpa [headWordChar] using h

lemma lastWordChar_getLast {p : Str} (h : lastWordChar p = true) :
    ∃ c, p.getLast? = some c ∧ isWordChar c = true := by
  cases hp : p.getLast? with
  | none =>
    unfold lastWordChar at h
    rw [hp] at h
    exact absurd h (by simp)
  | some c =>
    unfold lastWordChar at h
    rw [hp] at h
    exact ⟨c, rfl, h⟩

lemma wordBoundaryMatch_strip (p w1 w2 t : Str)
    (hw1 : ∀ c ∈ w1, isJsSpace c = true) (hw2 : ∀ c ∈ w2, isJsSpace c = true)
    (hh : headWordChar p = true) (hl : lastWordChar p = true) :
    wordBoundaryMatch (w1 ++ t ++ w2) p = wordBoundaryMatch t p := by
  obtain ⟨ph, pt, hp, hph⟩ := headWordChar_head hh
  obtain ⟨pl, hpl, hplw⟩ := lastWordChar_getLast hl
  rw [Bool.eq_iff_iff, wordBoundaryMatch_iff, wordBoundaryMatch_iff]
  constructor
  · rintro ⟨pre, post, heq, hb, ha⟩
    have hpre_s : pre <+: (w1 ++ t ++ w2) := ⟨p ++ post, by rw [heq]⟩
    have hw1_s : w1 <+: (w1 ++ t ++ w2) := ⟨t ++ w2, by simp [List.append_assoc]⟩
    have hpost_s : post <:+ (w1 ++ t ++ w2) := by
      refine ⟨pre ++ p, ?_⟩
      rw [List.append_assoc]
      exact heq.symm
    have hw2_s : w2 <:+ (w1 ++ t ++ w2) := ⟨w1 ++ t, rfl⟩
    have hw1pre : w1.length ≤ pre.length := by
      by_contra hlt
      push_neg at hlt
      obtain ⟨u, hu⟩ := List.prefix_of_prefix_length_le hpre_s hw1_s (le_of_lt hlt)
      have hune : u ≠ [] := by
        intro hcon
        rw [hcon, List.append_nil] at hu
        rw [hu] at hlt
        exact lt_irrefl _ hlt
      have heq2 : pre ++ (u ++ (t ++ w2)) = pre ++ (p ++ post) := by
        calc pre ++ (u ++ (t ++ w2)) = (pre ++ u) ++ (t ++ w2) := by
              rw [List.append_assoc]
          _ = w1 ++ (t ++ w2) := by rw [hu]
          _ = w1 ++ t ++ w2 := by rw [List.append_assoc]
          _ = pre ++ (p ++ post) := heq
      have hup := List.append_cancel_left heq2
      cases u with
      | nil => exact hune rfl
      | cons uh ut =>
        rw [hp] at hup
        have huh : uh = ph := by
          have := (List.cons.injEq .. ▸ hup).1
          simpa using this
        have hws : isJsSpace uh = true := by
          refine hw1 uh ?_
          rw [← hu]
          exact List.mem_append.mpr (Or.inr (by simp))
        rw [huh] at hws
        rw [ws_not_word hws] at hph
        exact absurd hph (by simp)
    have hw2post : w2.length ≤ post.length := by
      by_contra hlt
      push_neg at hlt
      obtain ⟨u, hu⟩ := List.suffix_of_suffix_length_le hpost_s hw2_s (le_of_lt hlt)
      have hune : u ≠ [] := by
        intro hcon
        rw [hcon, List.nil_append] at hu
        rw [hu] at hlt
        exact lt_irrefl _ hlt
      have heq2 : ((w1 ++ t) ++ u) ++ post = (pre ++ p) ++ post := by
        calc ((w1 ++ t) ++ u) ++ post = (w1 ++ t) ++ (u ++ post) := by
              rw [List.append_assoc]
          _ = (w1 ++ t) ++ w2 := by rw [hu]
          _ = pre ++ (p ++ post) := heq
          _ = (pre ++ p) ++ post := by rw [List.append_assoc]
      have hup := List.append_cancel_right heq2
      obtain ⟨x, hx⟩ : ∃ x, u.getLast? = some x := by
        cases hy : u.getLast? with
        | none => exact absurd (List.getLast?_eq_none_iff.mp hy) hune
        | some x => exact ⟨x, rfl⟩
      have hlast1 : ((w1 ++ t) ++ u).getLast? = some x := by
        rw [List.getLast?_append, hx]
        rfl
      have hlast2 : (pre ++ p).getLast? = some pl := by
        rw [List.getLast?_append, hpl]
        rfl
      rw [hup, hlast2] at hlast1
      have hxpl : pl = x := by injection hlast1
      have hws : isJsSpace x = true := by
        refine hw2 x ?_
        rw [← hu]
        exact List.mem_append.mpr (Or.inl (List.mem_of_mem_getLast? hx))
      rw [← hxpl] at hws
      rw [ws_not_word hws] at hplw
      exact absurd hplw (by simp)
    obtain ⟨pre1, rfl⟩ : ∃ pre1, pre = w1 ++ pre1 := by
      obtain ⟨u, hu⟩ := List.prefix_of_prefix_length_le hw1_s hpre_s hw1pre
      exact ⟨u, hu.symm⟩
    obtain ⟨post1, rfl⟩ : ∃ post1, post = post1 ++ w2 := by
      obtain ⟨u, hu⟩ := List.suffix_of_suffix_length_le hw2_s hpost_s hw2post
      exact ⟨u, hu.symm⟩
    have heq3 : t ++ w2 = (pre1 ++ (p ++ post1)) ++ w2 := by
      have h1 : w1 ++ (t ++ w2) = w1 ++ ((pre1 ++ (p ++ post1)) ++ w2) := by
        calc w1 ++ (t ++ w2) = w1 ++ t ++ w2 := by rw [List.append_assoc]
          _ = (w1 ++ pre1) ++ (p ++ (post1 ++ w2)) := heq
          _ = w1 ++ ((pre1 ++ (p ++ post1)) ++ w2) := by simp [List.append_assoc]
      exact List.append_cancel_left h1
    refine ⟨pre1, post1, List.append_cancel_right heq3, ?_, ?_⟩
    · cases hg : pre1.getLast? with
      | none => simp [nonWordOpt]
      | some x =>
        have hgl : (w1 ++ pre1).getLast? = some x := by
          rw [List.getLast?_append, hg]
          rfl
        rw [hgl] at hb
        exact hb
    · cases hgp : post1.head? with
      | none => simp [nonWordOpt]
      | some x =>
        have hgh : (post1 ++ w2).head? = some x := by
          rw [List.head?_append, hgp]
          rfl
        rw [hgh] at ha
        exact ha
  · rintro ⟨pre, post, heq, hb, ha⟩
    refine ⟨w1 ++ pre, post ++ w2, ?_, ?_, ?_⟩
    · rw [heq]
      simp [List.append_assoc]
    · rw [List.getLast?_append]
      cases hpre : pre.getLast? with
      | some x =>
        rw [hpre] at hb
        simpa [Option.or] using hb
      | none =>
        rw [Option.none_or]
        cases hw : w1.getLast? with
        | none => simp [nonWordOpt]
        | some y =>
          have hws : isJsSpace y = true := hw1 y (List.mem_of_mem_getLast? hw)
          simp [nonWordOpt, ws_not_word hws]
    · rw [List.head?_append]
      cases hpost : post.head? with
      | some x =>
        rw [hpost] at ha
        simpa [Option.or] using ha
      | none =>
        rw [Option.none_or]
        cases hw : w2.head? with
        | none => simp [nonWordOpt]
        | some y =>
          have hws : isJsSpace y = true := hw2 y (List.mem_of_mem_head? hw)
          simp [nonWordOpt, ws_not_word hws]

lemma trimStr_decomp (s : Str) :
    ∃ w1 w2, s = w1 ++ trimStr s ++ w2 ∧ (∀ c ∈ w1, isJsSpace c = true) ∧
      ∀ c ∈ w2, isJsSpace c = true := by
  have h1 : s.takeWhile isJsSpace ++ s.dropWhile isJsSpace = s :=
    List.takeWhile_append_dropWhile _ _
  have h2 : (s.dropWhile isJsSpace).reverse.takeWhile isJsSpace ++
      (s.dropWhile isJsSpace).reverse.dropWhile isJsSpace =
      (s.dropWhile isJsSpace).reverse :=
    List.takeWhile_append_dropWhile _ _
  have h3 : s.dropWhile isJsSpace =
      trimStr s ++ ((s.dropWhile isJsSpace).reverse.takeWhile isJsSpace).reverse := by
    have h4 := congrArg List.reverse h2
    rw [List.reverse_append, List.reverse_reverse] at h4
    exact h4.symm
  refine ⟨s.takeWhile isJsSpace,
    ((s.dropWhile isJsSpace).reverse.takeWhile isJsSpace).reverse, ?_, ?_, ?_⟩
  · conv_lhs => rw [← h1, h3]
    rw [List.append_assoc]
  · intro c hc
    exact List.mem_takeWhile_imp hc
  · intro c hc
    rw [List.mem_reverse] at hc
    exact List.mem_takeWhile_imp hc

lemma offTopic_phrases_word : ∀ p ∈ CLEAR_OFF_TOPIC_PHRASES,
    headWordChar p = true ∧ lastWordChar p = true := by decide

lemma testWordPattern_trimStr (phrases : List Str)
    (hws : ∀ p ∈ phrases, headWordChar p = true ∧ lastWordChar p = true) (s : Str) :
    testWordPattern phrases (trimStr s) = testWordPattern phrases s := by
  obtain ⟨w1, w2, hdecomp, hw1, hw2⟩ := trimStr_decomp s
  have hmatch : ∀ p ∈ phrases, wordBoundaryMatch (trimStr s) p = wordBoundaryMatch s p := by
    intro p hp
    have hstrip := wordBoundaryMatch_strip p w1 w2 (trimStr s) hw1 hw2
      (hws p hp).1 (hws p hp).2
    conv_rhs => rw [hdecomp]
    exact hstrip.symm
  unfold testWordPattern
  induction phrases with
  | nil => rfl
  | cons p ps ih =>
    simp only [List.any_cons]
    rw [hmatch p (List.mem_cons_self _ _),
      ih (fun q hq => hws q (List.mem_cons_of_mem _ hq))
        (fun q hq => hmatch q (List.mem_cons_of_mem _ hq))]

lemma upperLower_snd_nofind : ∀ p ∈ upperLowerTable,
    List.find? (fun q => decide (q.1 = p.2)) upperLowerTable = none := by decide

lemma upperLower_ws : ∀ p ∈ upperLowerTable,
    isJsSpace p.1 = false ∧ isJsSpace p.2 = false := by decide

lemma asciiLower_asciiLower (c : Char) : asciiLower (asciiLower c) = asciiLower c := by
  cases hf : List.find? (fun p => decide (p.1 = c)) upperLowerTable with
  | none => simp only [asciiLower, hf]
  | some p =>
    have hmem := List.mem_of_find?_eq_some hf
    have hnone := upperLower_snd_nofind p hmem
    simp only [asciiLower, hf, hnone]

lemma isJsSpace_asciiLower (c : Char) : isJsSpace (asciiLower c) = isJsSpace c := by
  cases hf : List.find? (fun p => decide (p.1 = c)) upperLowerTable with
  | none => simp only [asciiLower, hf]
  | some p =>
    have hmem := List.mem_of_find?_eq_some hf
    have hws := upperLower_ws p hmem
    have hc : p.1 = c := by simpa using List.find?_some hf
    simp only [asciiLower, hf]
    rw [hws.2, ← hc, hws.1]

lemma lowerStr_lowerStr (s : Str) : lowerStr (lowerStr s) = lowerStr s := by
  induction s with
  | nil => rfl
  | cons c rest ih =>
    show asciiLower (asciiLower c) :: lowerStr (lowerStr rest) =
      asciiLower c :: lowerStr rest
    rw [asciiLower_asciiLower, ih]

lemma dropWhile_lowerStr (s : Str) :
    (lowerStr s).dropWhile isJsSpace = lowerStr (s.dropWhile isJsSpace) := by
  rw [lowerStr, List.dropWhile_map]
  have hfun : (isJsSpace ∘ asciiLower) = isJsSpace := by
    funext c
    exact isJsSpace_asciiLower c
  rw [hfun]
  rfl

lemma reverse_lowerStr (s : Str) : (lowerStr s).reverse = lowerStr s.reverse := by
  rw [lowerStr, lowerStr, List.map_reverse]

lemma trimStr_lowerStr (s : Str) : trimStr (lowerStr s) = lowerStr (trimStr s) := by
  unfold trimStr
  rw [dropWhile_lowerStr, reverse_lowerStr, dropWhile_lowerStr, reverse_lowerStr]

lemma hasOT_key (q : Str) :
    hasClearOffTopicSignal (getCacheKeyForClassification q) = hasClearOffTopicSignal q := by
  unfold hasClearOffTopicSignal getCacheKeyForClassification
  rw [trimStr_lowerStr, lowerStr_lowerStr, ← trimStr_lowerStr,
    testWordPattern_trimStr CLEAR_OFF_TOPIC_PHRASES offTopic_phrases_word]

lemma ccErase_subset (k : Str) : ∀ st : ClassCache, ∀ e ∈ ccErase k st, e ∈ st := by
  intro st
  induction st with
  | nil => intro e he; simp [ccErase] at he
  | cons kv rest ih =>
    obtain ⟨k2, v⟩ := kv
    intro e he
    by_cases hk : k2 = k
    · simp only [ccErase, if_pos hk] at he
      exact List.mem_cons_of_mem _ he
    · simp only [ccErase, if_neg hk] at he
      rcases List.mem_cons.mp he with h | h
      · exact h ▸ List.mem_cons_self _ _
      · exact List.mem_cons_of_mem _ (ih e h)

lemma ccSet_mem (k : Str) (v : DomainClassification × Int) :
    ∀ st : ClassCache, ∀ e ∈ ccSet k v st, e = (k, v) ∨ e ∈ st := by
  intro st
  induction st with
  | nil =>
    intro e he
    simp only [ccSet] at he
    exact Or.inl (by simpa using he)
  | cons kv rest ih =>
    obtain ⟨k2, v2⟩ := kv
    intro e he
    by_cases hk : k2 = k
    · simp only [ccSet, if_pos hk] at he
      rcases List.mem_cons.mp he with h | h
      · subst hk
        exact Or.inl h
      · exact Or.inr (List.mem_cons_of_mem _ h)
    · simp only [ccSet, if_neg hk] at he
      rcases List.mem_cons.mp he with h | h
      · exact Or.inr (h ▸ List.mem_cons_self _ _)
      · rcases ih e h with h2 | h2
        · exact Or.inl h2
        · exact Or.inr (List.mem_cons_of_mem _ h2)

lemma ccLookup_mem (k : Str) :
    ∀ st : ClassCache, ∀ v, ccLookup k st = some v → (k, v) ∈ st := by
  intro st
  induction st with
  | nil => intro v h; simp [ccLookup] at h
  | cons kv rest ih =>
    obtain ⟨k2, v2⟩ := kv
    intro v h
    by_cases hk : k2 = k
    · simp only [ccLookup, if_pos hk] at h
      subst hk
      obtain rfl : v2 = v := by injection h
      exact List.mem_cons_self _ _
    · simp only [ccLookup, if_neg hk] at h
      exact List.mem_cons_of_mem _ (ih v h)

lemma getCached_subset (q : Str) (st : ClassCache) (now : Int) :
    ∀ e ∈ (getCachedClassification q st now).2, e ∈ st := by
  intro e
  simp only [getCachedClassification]
  cases hcc : ccLookup (getCacheKeyForClassification q) st with
  | none =>
    simp only [hcc]
    exact id
  | some v =>
    obtain ⟨r, exp⟩ := v
    simp only [hcc]
    by_cases hexp : exp < now
    · rw [if_pos hexp]
      exact fun he => ccErase_subset _ st e he
    · rw [if_neg hexp]
      exact id

lemma getCached_some (q : Str) (st : ClassCache) (now : Int) (r : DomainClassification)
    (st2 : ClassCache) (h : getCachedClassification q st now = (some r, st2)) :
    ∃ exp, (getCacheKeyForClassification q, r, exp) ∈ st := by
  unfold getCachedClassification at h
  cases hcc : ccLookup (getCacheKeyForClassification q) st with
  | none =>
    simp only [hcc] at h
    exact absurd (congrArg Prod.fst h) (by simp)
  | some v =>
    obtain ⟨r2, exp⟩ := v
    simp only [hcc] at h
    by_cases hexp : exp < now
    · rw [if_pos hexp] at h
      exact absurd (congrArg Prod.fst h) (by simp)
    · rw [if_neg hexp] at h
      have hr : r2 = r := by
        have h2 := congrArg Prod.fst h
        simpa using h2
      subst hr
      exact ⟨exp, ccLookup_mem _ st _ hcc⟩

/-- An entry of the classification cache is safe when its result is not an
outright rejection, or its key carries a clear off-topic signal. -/
def SafeEntry (k : Str) (r : DomainClassification) : Prop :=
  r.in_domain = true ∨ r.is_financial = true ∨ hasClearOffTopicSignal k = true

/-- All entries of the cache are safe. -/
def SafeCache (st : ClassCache) : Prop := ∀ e ∈ st, SafeEntry e.1 e.2.1

lemma classify_preserves_safe (q : Str) (outcome : ClassifierOutcome) (st : ClassCache)
    (now : Int) (hsafe : SafeCache st) :
    SafeCache (classifyQueryDomain q outcome st now).2 := by
  unfold classifyQueryDomain
  by_cases hfast : isClearlyFinancialQuery q = true
  · simp only [hfast, if_true]
    exact hsafe
  · have hfast2 : isClearlyFinancialQuery q = false := by simpa using hfast
    simp only [hfast2, Bool.false_eq_true, if_false]
    rcases hpair : getCachedClassification q st now with ⟨o, st2⟩
    have hst2 : ∀ e ∈ st2, e ∈ st := by
      intro e he
      have hsub := getCached_subset q st now e
      rw [hpair] at hsub
      exact hsub he
    have hsafe2 : SafeCache st2 := fun e he => hsafe e (hst2 e he)
    cases o with
    | some r =>
      simp only [hpair]
      exact hsafe2
    | none =>
      simp only [hpair]
      cases outcome with
      | failure => exact hsafe2
      | parsed ind isf rsn =>
        dsimp only
        by_cases hcond : (!ind && !(isf.getD true) && !hasClearOffTopicSignal q) = true
        · rw [if_pos hcond]
          intro e he
          rcases ccSet_mem _ _ st2 e he with h | h
          · rw [h]
            exact Or.inl rfl
          · exact hsafe2 e h
        · rw [if_neg hcond]
          intro e he
          rcases ccSet_mem _ _ st2 e he with h | h
          · rw [h]
            show SafeEntry (getCacheKeyForClassification q) ⟨ind, isf.getD true, _⟩
            by_cases hind : ind = true
            · exact Or.inl hind
            · by_cases hisf : isf.getD true = true
              · exact Or.inr (Or.inl hisf)
              · refine Or.inr (Or.inr ?_)
                rw [hasOT_key]
                cases hot : hasClearOffTopicSignal q with
                | true => rfl
                | false =>
                  exfalso
                  apply hcond
                  rw [Bool.not_eq_true] at hind
                  rw [Bool.not_eq_true] at hisf
                  rw [hind, hisf, hot]
                  rfl
          · exact hsafe2 e h

lemma reachable_safe {st : ClassCache} (h : ReachableClassCache st) : SafeCache st := by
  induction h with
  | init => intro e he; simp at he
  | step q outcome now hst ih => exact classify_preserves_safe q outcome _ now ih

/-- C2: for every query without a clear off-topic lexical signal, every
classifier outcome (including malformed output and call failures), every
reachable cache state and every clock reading, classifyQueryDomain never
returns the outright-rejection pair with in_domain false and is_financial
false. -/
theorem classify_never_silent_reject (q : Str) (outcome : ClassifierOutcome)
    (st : ClassCache) (now : Int) (hreach : ReachableClassCache st)
    (hq : hasClearOffTopicSignal q = false) :
    ¬((classifyQueryDomain q outcome st now).1.in_domain = false ∧
      (classifyQueryDomain q outcome st now).1.is_financial = false) := by
  have hsafe := reachable_safe hreach
  rintro ⟨hin, hfin⟩
  unfold classifyQueryDomain at hin hfin
  by_cases hfast : isClearlyFinancialQuery q = true
  · simp only [hfast, if_true] at hin
    exact absurd hin (by simp)
  · have hfast2 : isClearlyFinancialQuery q = false := by simpa using hfast
    simp only [hfast2, Bool.false_eq_true, if_false] at hin hfin
    rcases hpair : getCachedClassification q st now with ⟨o, st2⟩
    cases o with
    | some r =>
      simp only [hpair] at hin hfin
      obtain ⟨exp, hentry⟩ := getCached_some q st now r st2 hpair
      rcases hsafe _ hentry with h | h | h
      · rw [h] at hin
        exact absurd hin (by simp)
      · rw [h] at hfin
        exact absurd hfin (by simp)
      · rw [hasOT_key, hq] at h
        exact absurd h (by simp)
    | none =>
      simp only [hpair] at hin hfin
      cases outcome with
      | failure =>
        exact absurd hin (by simp [heuristicDomainClassification])
      | parsed ind isf rsn =>
        dsimp only at hin hfin
        by_cases hcond : (!ind && !(isf.getD true) && !hasClearOffTopicSignal q) = true
        · rw [if_pos hcond] at hin
          exact absurd hin (by simp)
        · rw [if_neg hcond] at hin hfin
          have hin2 : ind = false := hin
          have hfin2 : isf.getD true = false := hfin
          apply hcond
          rw [hin2, hfin2, hq]
          rfl

/-- C2 witness: on the empty cache, a model outcome that claims an outright
rejection of a query with no off-topic signal is overridden. -/
theorem classify_never_silent_reject_witness :
    ¬((classifyQueryDomain "hello".data (.parsed false (some false) none)
        [] 0).1.in_domain = false ∧
      (classifyQueryDomain "hello".data (.parsed false (some false) none)
        [] 0).1.is_financial = false) :=
  classify_never_silent_reject "hello".data (.parsed false (some false) none) [] 0
    ReachableClassCache.init (by decide)
end Retrieval
